import Mathlib

/-!
Verification development for the differential-growth path simulation
(`core/Path.js` together with the experiment sketch and its `Settings.js`).

The embedding strategy:

* Coordinates are embedded as rationals `ℚ` (the source uses JS numbers; all
  operations appearing in the verified code paths are `+ - * /`, so `ℚ` is an
  exact executable idealization).  The only transcendental computation,
  `Math.atan` in `Path.injectNodeByCurvature`, is embedded separately over `ℝ`
  with `Real.arctan`.
* The source compares Euclidean distances (`Math.sqrt` under `Node.distance`)
  against thresholds.  To stay executable we embed each comparison sqrt-free:
  for the squared distance `d2 ≥ 0`,
    `sqrt d2 ≥ t ↔ t ≤ 0 ∨ t^2 ≤ d2`   (`distGE`),
    `sqrt d2 > t ↔ t < 0 ∨ t^2 < d2`   (`distGT`),
    `sqrt d2 < t ↔ 0 < t ∧ d2 < t^2`   (`distLT`).
* `Path.splitEdges`, `Path.pruneNodes` and `Path.injectNodeByCurvature` iterate
  with `for (let [index, node] of this.nodes.entries())` while splicing the
  array being iterated.  JavaScript array iterators read the live array, so a
  splice before/at the current index shifts which element the next index hits.
  We embed these loops as zipper loops over `(before, after)` with
  `array = before.reverse ++ after` and `index = before.length`, reproducing
  exactly the index arithmetic of the source.
* Classes `Node`, `Bounds`, `World`, `Defaults` are required by `Path.js` but
  their files are not part of the sources; where needed they are modelled from
  the spec (marked `Modelled from the spec:` on each such definition).
-/

namespace DiffGrowth

/-- Point with x/y coordinates, used both for node positions and for the
entries of the spatial index that repulsion queries. -/
structure Pt where
  x : ℚ
  y : ℚ
deriving DecidableEq, Repr

/-- Squared Euclidean distance between two points.  `Node.distance` in the
source returns the (non-squared) Euclidean distance; every use in the verified
code compares it against a threshold, which we express sqrt-free via
`distGE` / `distGT` / `distLT` below. -/
def dist2 (a b : Pt) : ℚ :=
  (a.x - b.x) ^ 2 + (a.y - b.y) ^ 2

/-- Embedding of the comparison `distance(a, b) >= t` (used by
`Path.splitEdges`): for a nonnegative Euclidean distance this holds iff
`t ≤ 0` or `t² ≤ dist2 a b`. -/
def distGE (a b : Pt) (t : ℚ) : Prop :=
  t ≤ 0 ∨ t ^ 2 ≤ dist2 a b

/-- Embedding of the strict comparison `distance(a, b) > t` (used by
`Path.applyAttraction` and `Path.injectRandomNode`). -/
def distGT (a b : Pt) (t : ℚ) : Prop :=
  t < 0 ∨ t ^ 2 < dist2 a b

/-- Embedding of the comparison `distance(a, b) < t` (used by
`Path.pruneNodes`). -/
def distLT (a b : Pt) (t : ℚ) : Prop :=
  0 < t ∧ dist2 a b < t ^ 2

instance (a b : Pt) (t : ℚ) : Decidable (distGE a b t) := by
  unfold distGE; infer_instance

instance (a b : Pt) (t : ℚ) : Decidable (distGT a b t) := by
  unfold distGT; infer_instance

instance (a b : Pt) (t : ℚ) : Decidable (distLT a b t) := by
  unfold distLT; infer_instance

theorem distGE_iff_not_distLT (a b : Pt) (t : ℚ) : distGE a b t ↔ ¬ distLT a b t := by
  unfold distGE distLT
  constructor
  · rintro (h | h) ⟨h1, h2⟩
    · exact absurd h1 (not_lt.mpr h)
    · exact absurd h2 (not_lt.mpr h)
  · intro h
    by_cases ht : 0 < t
    · right
      by_contra hlt
      exact h ⟨ht, lt_of_not_le hlt⟩
    · left; exact le_of_not_lt ht

/-- Linear interpolation `p5.lerp(a, b, t) = a + (b - a) * t`. -/
def lerp (a b t : ℚ) : ℚ := a + (b - a) * t

/-- Configuration surface (`Settings.js` of the experiment merged over
`Defaults`).  `MaxHistorySize`, `MaxVelocity` and `BrownianMotionRange` come
from the missing `Defaults.js` and are kept as parameters. -/
structure Settings where
  MinDistance : ℚ
  MaxDistance : ℚ
  RepulsionRadius : ℚ
  AttractionForce : ℚ
  RepulsionForce : ℚ
  AlignmentForce : ℚ
  MaxHistorySize : ℕ
  MaxVelocity : ℚ
  BrownianMotionRange : ℚ
deriving DecidableEq, Repr

/-- The experiment's `Settings.js` values (`MinDistance: 10`, `MaxDistance:
20`, `RepulsionRadius: 30`, `AttractionForce: .2`, `RepulsionForce: .6`,
`AlignmentForce: .55`); the fields taken from the missing `Defaults.js` are
given placeholder values here and all theorems quantify over them. -/
def exSettings : Settings :=
  { MinDistance := 10
    MaxDistance := 20
    RepulsionRadius := 30
    AttractionForce := 1/5
    RepulsionForce := 3/5
    AlignmentForce := 11/20
    MaxHistorySize := 10
    MaxVelocity := 1/2
    BrownianMotionRange := 1 }

/-- Modelled from the spec: class `Node` (its file `core/Node.js` is not among
the sources).  Per the spec a Node has a position `(x, y)`, a next-position
target, a fixed flag, and per-node thresholds `minDistance` and
`repulsionRadius` (plus `maxDistance`, unused by the verified operations). -/
structure Node where
  x : ℚ
  y : ℚ
  nextPosition : Pt
  isFixed : Bool
  minDistance : ℚ
  repulsionRadius : ℚ
deriving DecidableEq, Repr

/-- Current position of a node as a point. -/
def Node.pos (n : Node) : Pt := ⟨n.x, n.y⟩

/-- Modelled from the spec: `Node` construction as performed by
`Path.getMidpointNode` — a new node at the average of the two nodes'
coordinates, with `nextPosition` initialized to its position, thresholds taken
from the Path's settings, and the `fixed` argument left at its default
`false`. -/
def midpointNode (s : Settings) (n1 n2 : Node) : Node :=
  { x := (n1.x + n2.x) / 2
    y := (n1.y + n2.y) / 2
    nextPosition := ⟨(n1.x + n2.x) / 2, (n1.y + n2.y) / 2⟩
    isFixed := false
    minDistance := s.MinDistance
    repulsionRadius := s.RepulsionRadius }

/-- Modelled from the spec: `Node.iterate` ("moves current position a fixed
fraction of the way toward `nextPosition`"; per the spec's invariant "fixed
nodes never move", a fixed node is left untouched). -/
def nodeIterate (s : Settings) (n : Node) : Node :=
  if n.isFixed then n
  else { n with
          x := lerp n.x n.nextPosition.x s.MaxVelocity
          y := lerp n.y n.nextPosition.y s.MaxVelocity }

/-- `Path.getConnectedNodes`, generic in the element type (it only inspects
list structure): previous node is the last node for index 0 of a closed path,
`nodes[index-1]` for `index ≥ 1`, and absent otherwise; next node is
`nodes[0]` for the last index of a closed path and `nodes[index+1]` (absent
when out of range) otherwise. -/
def getConnected {α : Type} (isClosed : Bool) (nodes : List α) (index : ℕ) :
    Option α × Option α :=
  let previousNode : Option α :=
    if index = 0 then
      (if isClosed then nodes.getLast? else none)
    else
      nodes[index - 1]?
  let nextNode : Option α :=
    if index = nodes.length - 1 ∧ isClosed then
      nodes[0]?
    else
      nodes[index + 1]?
  (previousNode, nextNode)

theorem needSplits_ex (M d2 : ℚ) (h : 0 < M) : ∃ n : ℕ, d2 < M ^ 2 * 4 ^ n := by
  obtain ⟨n, hn⟩ := pow_unbounded_of_one_lt (α := ℚ) (y := 4) (d2 / M ^ 2) (by norm_num)
  have hM2 : (0 : ℚ) < M ^ 2 := by positivity
  exact ⟨n, by
    calc d2 = d2 / M ^ 2 * M ^ 2 := by field_simp
    _ < 4 ^ n * M ^ 2 := mul_lt_mul_of_pos_right hn hM2
    _ = M ^ 2 * 4 ^ n := by ring⟩

/-- Number of times a squared distance `d2` must be quartered (i.e. the edge
halved) before the edge drops strictly below the threshold `M`: the least `n`
with `d2 < M² · 4ⁿ`.  Used only in the termination measure of `splitLoop`,
never in its computational body. -/
def needSplits (M d2 : ℚ) : ℕ :=
  if h : 0 < M then Nat.find (needSplits_ex M d2 h) else 0

theorem needSplits_pos {M d2 : ℚ} (hM : 0 < M) (h : M ^ 2 ≤ d2) :
    0 < needSplits M d2 := by
  unfold needSplits
  rw [dif_pos hM, Nat.find_pos]
  simpa using not_lt.mpr h

theorem needSplits_quarter_lt {M d2 : ℚ} (hM : 0 < M) (h : M ^ 2 ≤ d2) :
    needSplits M (d2 / 4) < needSplits M d2 := by
  have hpos := needSplits_pos hM h
  simp only [needSplits, dif_pos hM] at hpos ⊢
  have hkspec : d2 < M ^ 2 * 4 ^ Nat.find (needSplits_ex M d2 hM) :=
    Nat.find_spec (needSplits_ex M d2 hM)
  have hle : Nat.find (needSplits_ex M (d2 / 4) hM) ≤ Nat.find (needSplits_ex M d2 hM) - 1 := by
    apply Nat.find_le
    have h4 : d2 < M ^ 2 * (4 ^ (Nat.find (needSplits_ex M d2 hM) - 1) * 4) := by
      rw [← pow_succ, Nat.sub_add_cancel hpos]
      exact hkspec
    linarith
  omega

/-- Last element of `a :: rest` (the source's `this.nodes[this.nodes.length - 1]`
on a nonempty array). -/
def lastOr {α : Type} (a : α) : List α → α
  | [] => a
  | b :: rest => lastOr b rest

/-- Previous neighbor of the node currently examined by a live-iterating loop,
for loop state `(before, after)` with array `before.reverse ++ after` and
current index `before.length`: for index 0 this is the last node of the array
when the path is closed (`getLast? after` since `before = []`), otherwise
`nodes[index-1] = before.head`. -/
def zipPrev (isClosed : Bool) (before after : List Node) : Option Node :=
  match before with
  | [] => if isClosed then after.getLast? else none
  | b :: _ => some b

/-- Termination measure component for `splitLoop`: how many further halvings
the currently examined edge needs.  This is proof machinery only, it does not
appear in the computational definitions. -/
def edgeNeed (s : Settings) (isClosed : Bool) (before after : List Node) : ℕ :=
  match after with
  | [] => 0
  | a :: _ =>
    match zipPrev isClosed before after with
    | none => 0
    | some p => needSplits s.MaxDistance (dist2 a.pos p.pos)

theorem dist2_midpoint (s : Settings) (a p : Node) :
    dist2 a.pos (midpointNode s a p).pos = dist2 a.pos p.pos / 4 := by
  unfold dist2 midpointNode Node.pos
  ring

/-- The body of `Path.splitEdges`, embedded as a zipper loop over the live
array (`array = before.reverse ++ after`, current index = `before.length`).
For every node at distance ≥ `MaxDistance` from its previous neighbor a
midpoint node is spliced in immediately before the current index — appended at
the end of the array for index 0 (reachable only on closed paths) — and,
because the splice shifts the array under the live iterator, the same node is
examined again at the next index.  The hypothesis `0 < MaxDistance` reflects
that for `MaxDistance ≤ 0` the source loop never terminates (every freshly
created half-edge still satisfies `distance ≥ MaxDistance`). -/
def splitLoop (s : Settings) (isClosed : Bool) (hM : 0 < s.MaxDistance)
    (before after : List Node) : List Node :=
  match after with
  | [] => before.reverse
  | a :: rest =>
    match before with
    | [] =>
      -- index 0: previous neighbor exists only on a closed path (the last
      -- node of the live array, which here is `a :: rest` itself)
      match (if isClosed then some (lastOr a rest) else none) with
      | none => splitLoop s isClosed hM [a] rest
      | some p =>
        if _hd : distGE a.pos p.pos s.MaxDistance then
          -- `this.nodes.splice(this.nodes.length, 0, midpointNode)`
          splitLoop s isClosed hM [a] (rest ++ [midpointNode s a p])
        else
          splitLoop s isClosed hM [a] rest
      -- the `_hd` hypothesis above is not needed by the termination proof:
      -- splicing at the end leaves index < length, and index 0 never recurs
    | b :: bs =>
      if hd : distGE a.pos b.pos s.MaxDistance then
        -- `this.nodes.splice(index, 0, midpointNode)`: the midpoint lands at
        -- the current index and the live iterator re-examines `a` next
        splitLoop s isClosed hM (midpointNode s a b :: b :: bs) (a :: rest)
      else
        splitLoop s isClosed hM (a :: b :: bs) rest
termination_by
  ((if before.isEmpty then 1 else 0), after.length, edgeNeed s isClosed before after)
decreasing_by
  all_goals simp_wf
  · exact Prod.Lex.left _ _ (by norm_num)
  · exact Prod.Lex.left _ _ (by norm_num)
  · apply Prod.Lex.right
    apply Prod.Lex.right
    simp only [edgeNeed, zipPrev, dist2_midpoint]
    exact needSplits_quarter_lt hM (hd.resolve_left (not_le.mpr hM))
  · apply Prod.Lex.right
    exact Prod.Lex.left _ _ (by omega)

/-- `Path.splitEdges` on the node array of a path. -/
def splitEdges (s : Settings) (isClosed : Bool) (nodes : List Node) : List Node :=
  if hM : 0 < s.MaxDistance then splitLoop s isClosed hM [] nodes else nodes

theorem splitLoop_nil (s : Settings) (c : Bool) (hM : 0 < s.MaxDistance) (before : List Node) :
    splitLoop s c hM before [] = before.reverse := by
  unfold splitLoop
  rfl

theorem splitLoop_zero_open (s : Settings) (hM : 0 < s.MaxDistance) (a : Node)
    (rest : List Node) :
    splitLoop s false hM [] (a :: rest) = splitLoop s false hM [a] rest := by
  conv_lhs => unfold splitLoop
  simp

theorem splitLoop_zero_closed_split (s : Settings) (hM : 0 < s.MaxDistance) (a : Node)
    (rest : List Node)
    (hd : distGE a.pos (lastOr a rest).pos s.MaxDistance) :
    splitLoop s true hM [] (a :: rest) =
      splitLoop s true hM [a] (rest ++ [midpointNode s a (lastOr a rest)]) := by
  conv_lhs => unfold splitLoop
  simp [hd]

theorem splitLoop_zero_closed_noSplit (s : Settings) (hM : 0 < s.MaxDistance) (a : Node)
    (rest : List Node)
    (hd : ¬ distGE a.pos (lastOr a rest).pos s.MaxDistance) :
    splitLoop s true hM [] (a :: rest) = splitLoop s true hM [a] rest := by
  conv_lhs => unfold splitLoop
  simp [hd]

theorem splitLoop_cons_split (s : Settings) (c : Bool) (hM : 0 < s.MaxDistance) (a b : Node)
    (bs rest : List Node) (hd : distGE a.pos b.pos s.MaxDistance) :
    splitLoop s c hM (b :: bs) (a :: rest) =
      splitLoop s c hM (midpointNode s a b :: b :: bs) (a :: rest) := by
  conv_lhs => unfold splitLoop
  simp [hd]

theorem splitLoop_cons_noSplit (s : Settings) (c : Bool) (hM : 0 < s.MaxDistance) (a b : Node)
    (bs rest : List Node) (hd : ¬ distGE a.pos b.pos s.MaxDistance) :
    splitLoop s c hM (b :: bs) (a :: rest) = splitLoop s c hM (a :: b :: bs) rest := by
  conv_lhs => unfold splitLoop
  simp [hd]

/-- The spec's description of edge splitting, as a single pass over the
original node sequence: "for every node whose distance to its previous
neighbor exceeds a maximum-distance threshold, insert a new node at the
midpoint, immediately before the current index (wrapping for index 0 on
closed paths)" — here with the source's actual inclusive comparison
(`distance ≥ MaxDistance`). `p` is the previous neighbor of the first
element of the remaining list. -/
def specSplitGo (s : Settings) (p : Node) : List Node → List Node
  | [] => []
  | a :: rest =>
    if distGE a.pos p.pos s.MaxDistance then
      midpointNode s a p :: a :: specSplitGo s a rest
    else
      a :: specSplitGo s a rest

/-- Single-pass edge splitting over the original node sequence (the spec's
reading), with the index-0 midpoint of a closed path appended at the end of
the sequence as the source does. -/
def specSplitEdges (s : Settings) (isClosed : Bool) (nodes : List Node) : List Node :=
  match nodes with
  | [] => []
  | a :: rest =>
    match (if isClosed then some (lastOr a rest) else none) with
    | none => a :: specSplitGo s a rest
    | some p =>
      if distGE a.pos p.pos s.MaxDistance then
        (a :: specSplitGo s a rest) ++ [midpointNode s a p]
      else
        a :: specSplitGo s a rest

/-- The claim's literal reading of edge splitting: one midpoint for exactly
every node whose distance to its previous neighbor strictly exceeds
(`>`) the threshold, in a single pass over the original sequence. -/
def claimSplitGo (s : Settings) (p : Node) : List Node → List Node
  | [] => []
  | a :: rest =>
    if distGT a.pos p.pos s.MaxDistance then
      midpointNode s a p :: a :: claimSplitGo s a rest
    else
      a :: claimSplitGo s a rest

/-- The claim's literal reading of `Path.splitEdges` (see `claimSplitGo`). -/
def claimSplitEdges (s : Settings) (isClosed : Bool) (nodes : List Node) : List Node :=
  match nodes with
  | [] => []
  | a :: rest =>
    match (if isClosed then some (lastOr a rest) else none) with
    | none => a :: claimSplitGo s a rest
    | some p =>
      if distGT a.pos p.pos s.MaxDistance then
        (a :: claimSplitGo s a rest) ++ [midpointNode s a p]
      else
        a :: claimSplitGo s a rest

/-- Pairs `(node, previous neighbor)` of consecutive elements of a node
sequence. -/
def consPairs : List Node → List (Node × Node)
  | [] => []
  | [_] => []
  | b :: a :: rest => (a, b) :: consPairs (a :: rest)

/-- All `(node, previous neighbor)` pairs of a path: consecutive pairs, plus
the wrap-around pair (first node, last node) when the path is closed. -/
def allPairs (isClosed : Bool) (nodes : List Node) : List (Node × Node) :=
  consPairs nodes ++
    (if isClosed then
      (match nodes with
       | [] => []
       | a :: rest => [(a, lastOr a rest)])
     else [])

theorem dist2_nonneg (a b : Pt) : 0 ≤ dist2 a b := by
  unfold dist2; positivity

theorem dist2_midpoint_other (s : Settings) (a p : Node) :
    dist2 (midpointNode s a p).pos p.pos = dist2 a.pos p.pos / 4 := by
  unfold dist2 midpointNode Node.pos
  ring

theorem not_distGE_of_lt {a b : Pt} {t : ℚ} (ht : 0 < t) (h : dist2 a b < t ^ 2) :
    ¬ distGE a b t := by
  unfold distGE
  push_neg
  exact ⟨ht, h⟩

theorem lt_of_not_distGE {a b : Pt} {t : ℚ} (h : ¬ distGE a b t) :
    dist2 a b < t ^ 2 := by
  unfold distGE at h
  push_neg at h
  exact h.2

theorem ge_of_distGE {a b : Pt} {t : ℚ} (ht : 0 < t) (h : distGE a b t) :
    t ^ 2 ≤ dist2 a b :=
  h.resolve_left (not_le.mpr ht)

theorem consPairs_cons_cons (b a : Node) (rest : List Node) :
    consPairs (b :: a :: rest) = (a, b) :: consPairs (a :: rest) := rfl

theorem lastOr_cons {α : Type} (a b : α) (rest : List α) :
    lastOr a (b :: rest) = lastOr b rest := rfl

theorem lastOr_nil {α : Type} (a : α) : lastOr a [] = a := rfl

theorem consPairs_append_single (m : Node) :
    ∀ (rest : List Node) (a : Node),
      consPairs (a :: (rest ++ [m])) = consPairs (a :: rest) ++ [(m, lastOr a rest)] := by
  intro rest
  induction rest with
  | nil => intro a; rfl
  | cons x xs ih =>
    intro a
    rw [List.cons_append, consPairs_cons_cons, ih x, consPairs_cons_cons, lastOr_cons]
    rfl

theorem specSplitGo_append_single (s : Settings) (m : Node) :
    ∀ (rest : List Node) (p : Node),
      ¬ distGE m.pos (lastOr p rest).pos s.MaxDistance →
      specSplitGo s p (rest ++ [m]) = specSplitGo s p rest ++ [m] := by
  intro rest
  induction rest with
  | nil =>
    intro p h
    rw [lastOr_nil] at h
    simp only [List.nil_append, specSplitGo]
    rw [if_neg h]
  | cons x xs ih =>
    intro p h
    simp only [List.cons_append, specSplitGo, List.append_eq]
    rw [lastOr_cons] at h
    by_cases hd : distGE x.pos p.pos s.MaxDistance
    · rw [if_pos hd, if_pos hd, ih x h]
      simp
    · rw [if_neg hd, if_neg hd, ih x h]
      simp

/-- Simulation of the live-iterating `splitLoop` by the single spec pass, from
any state with the current index at least 1, provided every remaining
edge (including the one into the current node) is shorter than twice the
threshold. -/
theorem splitLoop_sim (s : Settings) (c : Bool) (hM : 0 < s.MaxDistance) :
    ∀ (rest : List Node) (b : Node) (bs : List Node),
      (∀ pr ∈ consPairs (b :: rest), dist2 pr.1.pos pr.2.pos < 4 * s.MaxDistance ^ 2) →
      splitLoop s c hM (b :: bs) rest = (b :: bs).reverse ++ specSplitGo s b rest := by
  intro rest
  induction rest with
  | nil =>
    intro b bs _
    rw [splitLoop_nil, specSplitGo]
    simp
  | cons a rest ih =>
    intro b bs hp
    have hpair : dist2 a.pos b.pos < 4 * s.MaxDistance ^ 2 := by
      have := hp (a, b) (by rw [consPairs_cons_cons]; exact List.mem_cons_self _ _)
      simpa using this
    have htail : ∀ pr ∈ consPairs (a :: rest), dist2 pr.1.pos pr.2.pos
        < 4 * s.MaxDistance ^ 2 := by
      intro pr hpr
      exact hp pr (by rw [consPairs_cons_cons]; exact List.mem_cons_of_mem _ hpr)
    by_cases hd : distGE a.pos b.pos s.MaxDistance
    · have hge := ge_of_distGE hM hd
      rw [splitLoop_cons_split _ _ _ _ _ _ _ hd]
      have hnm : ¬ distGE a.pos (midpointNode s a b).pos s.MaxDistance := by
        apply not_distGE_of_lt hM
        rw [dist2_midpoint]
        linarith
      rw [splitLoop_cons_noSplit _ _ _ _ _ _ _ hnm]
      rw [ih a (midpointNode s a b :: b :: bs) htail]
      rw [specSplitGo, if_pos hd]
      simp
    · rw [splitLoop_cons_noSplit _ _ _ _ _ _ _ hd]
      rw [ih a (b :: bs) htail]
      rw [specSplitGo, if_neg hd]
      simp

/-- Key helper: under positive `MaxDistance` and all edges (consecutive pairs
plus the wrap-around pair of a closed path) shorter than `2 · MaxDistance`,
the live-iterating `splitEdges` computes exactly the spec's single pass. -/
theorem splitEdges_eq_spec (s : Settings) (c : Bool) (nodes : List Node)
    (hM : 0 < s.MaxDistance)
    (hp : ∀ pr ∈ allPairs c nodes, dist2 pr.1.pos pr.2.pos < 4 * s.MaxDistance ^ 2) :
    splitEdges s c nodes = specSplitEdges s c nodes := by
  rw [splitEdges, dif_pos hM]
  have hcons : ∀ pr ∈ consPairs nodes, dist2 pr.1.pos pr.2.pos < 4 * s.MaxDistance ^ 2 := by
    intro pr hpr
    exact hp pr (by unfold allPairs; exact List.mem_append_left _ hpr)
  match nodes, hcons, hp with
  | [], _, _ => rw [splitLoop_nil]; rfl
  | a :: rest, hcons, hp =>
    cases c with
    | false =>
      rw [splitLoop_zero_open, splitLoop_sim s false hM rest a [] hcons]
      simp [specSplitEdges]
    | true =>
      have hwrap : dist2 a.pos (lastOr a rest).pos < 4 * s.MaxDistance ^ 2 := by
        have := hp (a, lastOr a rest)
          (by unfold allPairs
              apply List.mem_append_right
              simp)
        simpa using this
      by_cases hd : distGE a.pos (lastOr a rest).pos s.MaxDistance
      · rw [splitLoop_zero_closed_split s hM a rest hd]
        have hm4 : dist2 (midpointNode s a (lastOr a rest)).pos (lastOr a rest).pos
            < s.MaxDistance ^ 2 := by
          rw [dist2_midpoint_other]
          linarith
        have hpairs2 : ∀ pr ∈ consPairs (a :: (rest ++ [midpointNode s a (lastOr a rest)])),
            dist2 pr.1.pos pr.2.pos < 4 * s.MaxDistance ^ 2 := by
          intro pr hpr
          rw [consPairs_append_single] at hpr
          rcases List.mem_append.mp hpr with h1 | h2
          · exact hcons pr h1
          · have : pr = (midpointNode s a (lastOr a rest), lastOr a rest) := by simpa using h2
            rw [this]
            have hM2 : (0 : ℚ) < s.MaxDistance ^ 2 := by positivity
            simpa using lt_of_lt_of_le hm4 (by linarith)
        rw [splitLoop_sim s true hM (rest ++ [midpointNode s a (lastOr a rest)]) a [] hpairs2]
        have hmid : ¬ distGE (midpointNode s a (lastOr a rest)).pos (lastOr a rest).pos
            s.MaxDistance := not_distGE_of_lt hM hm4
        rw [specSplitGo_append_single s _ rest a (by
          -- the previous neighbor reached at the appended midpoint is the
          -- original last node
          have hsym : dist2 (midpointNode s a (lastOr a rest)).pos (lastOr a rest).pos
              = dist2 a.pos (lastOr a rest).pos / 4 := dist2_midpoint_other s a _
          apply not_distGE_of_lt hM
          rw [hsym] at hm4 ⊢
          exact hm4)]
        simp [specSplitEdges, if_pos hd]
      · rw [splitLoop_zero_closed_noSplit s hM a rest hd]
        rw [splitLoop_sim s true hM rest a [] hcons]
        simp [specSplitEdges, if_neg hd]

theorem lastOr_append_single (m : Node) :
    ∀ (l : List Node) (a : Node), lastOr a (l ++ [m]) = m := by
  intro l
  induction l with
  | nil => intro a; rfl
  | cons x xs ih => intro a; rw [List.cons_append, lastOr_cons, ih x]

theorem specSplitGo_lastOr (s : Settings) :
    ∀ (rest : List Node) (p : Node), lastOr p (specSplitGo s p rest) = lastOr p rest := by
  intro rest
  induction rest with
  | nil => intro p; rfl
  | cons a rest ih =>
    intro p
    rw [specSplitGo]
    by_cases hd : distGE a.pos p.pos s.MaxDistance
    · rw [if_pos hd, lastOr_cons, lastOr_cons, lastOr_cons, ih a]
    · rw [if_neg hd, lastOr_cons, lastOr_cons, ih a]

theorem specSplitGo_pairs_lt (s : Settings) (hM : 0 < s.MaxDistance) :
    ∀ (rest : List Node) (p : Node),
      (∀ pr ∈ consPairs (p :: rest), dist2 pr.1.pos pr.2.pos < 4 * s.MaxDistance ^ 2) →
      ∀ pr ∈ consPairs (p :: specSplitGo s p rest),
        dist2 pr.1.pos pr.2.pos < s.MaxDistance ^ 2 := by
  intro rest
  induction rest with
  | nil =>
    intro p _ pr hpr
    simp [consPairs, specSplitGo] at hpr
  | cons a rest ih =>
    intro p hp pr hpr
    have hpair : dist2 a.pos p.pos < 4 * s.MaxDistance ^ 2 := by
      have := hp (a, p) (by rw [consPairs_cons_cons]; exact List.mem_cons_self _ _)
      simpa using this
    have htail : ∀ pr ∈ consPairs (a :: rest), dist2 pr.1.pos pr.2.pos
        < 4 * s.MaxDistance ^ 2 := by
      intro pr hpr
      exact hp pr (by rw [consPairs_cons_cons]; exact List.mem_cons_of_mem _ hpr)
    rw [specSplitGo] at hpr
    by_cases hd : distGE a.pos p.pos s.MaxDistance
    · rw [if_pos hd, consPairs_cons_cons, consPairs_cons_cons] at hpr
      rcases List.mem_cons.mp hpr with h1 | hpr
      · rw [h1]
        simp only
        rw [dist2_midpoint_other]
        linarith
      rcases List.mem_cons.mp hpr with h2 | hpr
      · rw [h2]
        simp only
        rw [dist2_midpoint]
        linarith
      · exact ih a htail pr hpr
    · rw [if_neg hd, consPairs_cons_cons] at hpr
      rcases List.mem_cons.mp hpr with h1 | hpr
      · rw [h1]
        simp only
        exact lt_of_not_distGE hd
      · exact ih a htail pr hpr

/-- Key helper: after the spec's single splitting pass (under positive
`MaxDistance` and all edges initially shorter than `2 · MaxDistance`), every
edge of the result — wrap-around pair of a closed path included — is strictly
shorter than `MaxDistance`. -/
theorem specSplitEdges_pairs_lt (s : Settings) (c : Bool) (nodes : List Node)
    (hM : 0 < s.MaxDistance)
    (hp : ∀ pr ∈ allPairs c nodes, dist2 pr.1.pos pr.2.pos < 4 * s.MaxDistance ^ 2) :
    ∀ pr ∈ allPairs c (specSplitEdges s c nodes),
      dist2 pr.1.pos pr.2.pos < s.MaxDistance ^ 2 := by
  have hcons : ∀ pr ∈ consPairs nodes, dist2 pr.1.pos pr.2.pos < 4 * s.MaxDistance ^ 2 :=
    fun pr hpr => hp pr (by unfold allPairs; exact List.mem_append_left _ hpr)
  match nodes, hcons, hp with
  | [], _, _ =>
    intro pr hpr
    simp [specSplitEdges, allPairs, consPairs] at hpr
  | a :: rest, hcons, hp =>
    cases c with
    | false =>
      intro pr hpr
      simp only [specSplitEdges, if_neg, Bool.false_eq_true, allPairs] at hpr
      simp only [if_false, List.append_nil] at hpr
      exact specSplitGo_pairs_lt s hM rest a hcons pr hpr
    | true =>
      have hwrap : dist2 a.pos (lastOr a rest).pos < 4 * s.MaxDistance ^ 2 := by
        have := hp (a, lastOr a rest)
          (by unfold allPairs
              apply List.mem_append_right
              simp)
        simpa using this
      intro pr hpr
      by_cases hd : distGE a.pos (lastOr a rest).pos s.MaxDistance
      · have hres : specSplitEdges s true (a :: rest)
            = a :: (specSplitGo s a rest ++ [midpointNode s a (lastOr a rest)]) := by
          simp [specSplitEdges, if_pos hd]
        rw [hres] at hpr
        unfold allPairs at hpr
        rcases List.mem_append.mp hpr with hpr | hpr
        · rw [consPairs_append_single, specSplitGo_lastOr] at hpr
          rcases List.mem_append.mp hpr with hpr | hpr
          · exact specSplitGo_pairs_lt s hM rest a hcons pr hpr
          · have : pr = (midpointNode s a (lastOr a rest), lastOr a rest) := by
              simpa using hpr
            rw [this]
            simp only
            rw [dist2_midpoint_other]
            linarith
        · simp only [if_pos, lastOr_append_single] at hpr
          have : pr = (a, midpointNode s a (lastOr a rest)) := by simpa using hpr
          rw [this]
          simp only
          rw [dist2_midpoint]
          linarith
      · have hres : specSplitEdges s true (a :: rest) = a :: specSplitGo s a rest := by
          simp [specSplitEdges, if_neg hd]
        rw [hres] at hpr
        unfold allPairs at hpr
        rcases List.mem_append.mp hpr with hpr | hpr
        · exact specSplitGo_pairs_lt s hM rest a hcons pr hpr
        · simp only [if_pos, specSplitGo_lastOr] at hpr
          have : pr = (a, lastOr a rest) := by simpa using hpr
          rw [this]
          simp only
          exact lt_of_not_distGE hd

/-- The body of `Path.pruneNodes`, embedded as a zipper loop over the live
array (`array = before.reverse ++ after`, current index = `before.length`).
For every node closer than `MinDistance` to its previous neighbor, that
previous neighbor is removed (`splice(index-1, 1)`, or `splice(length-1, 1)`
at index 0 of a closed path) unless it is fixed.  A removal below the current
index shifts the live array one slot left, so the iterator's next index lands
two elements ahead: the node immediately after the current one is skipped. -/
def pruneLoop (s : Settings) (isClosed : Bool) : List Node → List Node → List Node
  | before, [] => before.reverse
  | [], a :: rest =>
    -- index 0: previous neighbor is the last node, on a closed path only
    match (if isClosed then some (lastOr a rest) else none) with
    | none => pruneLoop s isClosed [a] rest
    | some p =>
      if distLT a.pos p.pos s.MinDistance then
        if p.isFixed then
          pruneLoop s isClosed [a] rest
        else
          -- `this.nodes.splice(this.nodes.length - 1, 1)`: drop the last
          -- element; the iterator continues at index 1
          match h : (a :: rest).dropLast with
          | [] => []
          | b :: bs => pruneLoop s isClosed [b] bs
      else
        pruneLoop s isClosed [a] rest
  | b :: bs, a :: rest =>
    if distLT a.pos b.pos s.MinDistance then
      if b.isFixed then
        pruneLoop s isClosed (a :: b :: bs) rest
      else
        -- `this.nodes.splice(index - 1, 1)`: the current node slides to
        -- index-1 and the iterator's next index skips over `rest.head`
        match rest with
        | [] => (a :: bs).reverse
        | c :: rest2 => pruneLoop s isClosed (c :: a :: bs) rest2
    else
      pruneLoop s isClosed (a :: b :: bs) rest
termination_by _ after => after.length
decreasing_by
  all_goals simp_wf
  all_goals try omega
  all_goals
    have hlen := congrArg List.length h
    simp [List.length_dropLast] at hlen
    omega

/-- `Path.pruneNodes` on the node array of a path. -/
def pruneNodes (s : Settings) (isClosed : Bool) (nodes : List Node) : List Node :=
  pruneLoop s isClosed [] nodes

theorem pruneLoop_nil (s : Settings) (c : Bool) (before : List Node) :
    pruneLoop s c before [] = before.reverse := by
  unfold pruneLoop
  cases before <;> rfl

theorem pruneLoop_zero_open (s : Settings) (a : Node) (rest : List Node) :
    pruneLoop s false [] (a :: rest) = pruneLoop s false [a] rest := by
  conv_lhs => unfold pruneLoop
  simp

theorem pruneLoop_zero_closed_noPrune (s : Settings) (a : Node) (rest : List Node)
    (h : ¬ distLT a.pos (lastOr a rest).pos s.MinDistance) :
    pruneLoop s true [] (a :: rest) = pruneLoop s true [a] rest := by
  conv_lhs => unfold pruneLoop
  simp [h]

theorem pruneLoop_zero_closed_fixed (s : Settings) (a : Node) (rest : List Node)
    (h : distLT a.pos (lastOr a rest).pos s.MinDistance)
    (hf : (lastOr a rest).isFixed = true) :
    pruneLoop s true [] (a :: rest) = pruneLoop s true [a] rest := by
  conv_lhs => unfold pruneLoop
  simp [h, hf]

theorem pruneLoop_zero_closed_prune (s : Settings) (a : Node) (rest : List Node)
    (b : Node) (bs : List Node)
    (h : distLT a.pos (lastOr a rest).pos s.MinDistance)
    (hf : (lastOr a rest).isFixed = false)
    (hdl : (a :: rest).dropLast = b :: bs) :
    pruneLoop s true [] (a :: rest) = pruneLoop s true [b] bs := by
  conv_lhs => unfold pruneLoop
  simp only [reduceIte, if_pos h, hf, Bool.false_eq_true, if_false]
  split
  · rename_i heq
    rw [hdl] at heq
    cases heq
  · rename_i b2 bs2 heq
    rw [hdl] at heq
    cases heq
    rfl

theorem pruneLoop_zero_closed_prune_nil (s : Settings) (a : Node) (rest : List Node)
    (h : distLT a.pos (lastOr a rest).pos s.MinDistance)
    (hf : (lastOr a rest).isFixed = false)
    (hdl : (a :: rest).dropLast = []) :
    pruneLoop s true [] (a :: rest) = [] := by
  conv_lhs => unfold pruneLoop
  simp only [reduceIte, if_pos h, hf, Bool.false_eq_true, if_false]
  split
  · rfl
  · rename_i b2 bs2 heq
    rw [hdl] at heq
    cases heq

theorem pruneLoop_cons_noPrune (s : Settings) (c : Bool) (b : Node) (bs : List Node)
    (a : Node) (rest : List Node) (h : ¬ distLT a.pos b.pos s.MinDistance) :
    pruneLoop s c (b :: bs) (a :: rest) = pruneLoop s c (a :: b :: bs) rest := by
  conv_lhs => unfold pruneLoop
  simp [h]

theorem pruneLoop_cons_fixed (s : Settings) (c : Bool) (b : Node) (bs : List Node)
    (a : Node) (rest : List Node) (h : distLT a.pos b.pos s.MinDistance)
    (hf : b.isFixed = true) :
    pruneLoop s c (b :: bs) (a :: rest) = pruneLoop s c (a :: b :: bs) rest := by
  conv_lhs => unfold pruneLoop
  simp [h, hf]

theorem pruneLoop_cons_prune_nil (s : Settings) (c : Bool) (b : Node) (bs : List Node)
    (a : Node) (h : distLT a.pos b.pos s.MinDistance) (hf : b.isFixed = false) :
    pruneLoop s c (b :: bs) [a] = (a :: bs).reverse := by
  conv_lhs => unfold pruneLoop
  simp [h, hf]

theorem pruneLoop_cons_prune (s : Settings) (c : Bool) (b : Node) (bs : List Node)
    (a d : Node) (rest2 : List Node) (h : distLT a.pos b.pos s.MinDistance)
    (hf : b.isFixed = false) :
    pruneLoop s c (b :: bs) (a :: d :: rest2) = pruneLoop s c (d :: a :: bs) rest2 := by
  conv_lhs => unfold pruneLoop
  simp [h, hf]

theorem dropLast_append_lastOr :
    ∀ (rest : List Node) (a : Node), (a :: rest).dropLast ++ [lastOr a rest] = a :: rest := by
  intro rest
  induction rest with
  | nil => intro a; rfl
  | cons x xs ih =>
    intro a
    rw [lastOr_cons, List.dropLast_cons₂, List.cons_append, ih x]

/-- The result of the pruning loop is a sublist of the live array it starts
from: pruning only ever removes nodes, never reorders or edits them. -/
theorem pruneLoop_sublist (s : Settings) (c : Bool) :
    ∀ (before after : List Node),
      (pruneLoop s c before after).Sublist (before.reverse ++ after) := by
  intro before after
  induction before, after using pruneLoop.induct s c with
  | case1 before =>
    rw [pruneLoop_nil]
    simp
  | case2 a rest h ih =>
    cases c with
    | false =>
      rw [pruneLoop_zero_open]
      simpa using ih
    | true => simp at h
  | case3 a rest p hp h hf ih =>
    cases c with
    | false => simp at hp
    | true =>
      simp only [reduceDIte, Option.some.injEq] at hp
      subst hp
      rw [pruneLoop_zero_closed_fixed s a rest h hf]
      simpa using ih
  | case4 a rest p hp h hf hdl =>
    cases c with
    | false => simp at hp
    | true =>
      simp only [reduceDIte, Option.some.injEq] at hp
      subst hp
      rw [pruneLoop_zero_closed_prune_nil s a rest h (by simpa using hf) hdl]
      simp
  | case5 a rest p hp h hf b bs hdl ih =>
    cases c with
    | false => simp at hp
    | true =>
      simp only [reduceDIte, Option.some.injEq] at hp
      subst hp
      rw [pruneLoop_zero_closed_prune s a rest b bs h (by simpa using hf) hdl]
      have h1 : (pruneLoop s true [b] bs).Sublist (b :: bs) := by simpa using ih
      have h2 : (b :: bs).Sublist (a :: rest) := hdl ▸ List.dropLast_sublist _
      simpa using h1.trans h2
  | case6 a rest p hp h ih =>
    cases c with
    | false => simp at hp
    | true =>
      simp only [reduceDIte, Option.some.injEq] at hp
      subst hp
      rw [pruneLoop_zero_closed_noPrune s a rest h]
      simpa using ih
  | case7 b bs a rest h hf ih =>
    rw [pruneLoop_cons_fixed s c b bs a rest h hf]
    have h1 : (pruneLoop s c (a :: b :: bs) rest).Sublist
        (bs.reverse ++ (b :: a :: rest)) := by simpa using ih
    simpa using h1
  | case8 b bs a h hf =>
    rw [pruneLoop_cons_prune_nil s c b bs a h (by simpa using hf)]
    have h2 : (bs.reverse ++ [a]).Sublist (bs.reverse ++ (b :: [a])) :=
      List.Sublist.append_left (List.sublist_cons_self _ _) _
    simpa using h2
  | case9 b bs a h hf d rest ih =>
    rw [pruneLoop_cons_prune s c b bs a d rest h (by simpa using hf)]
    have h1 : (pruneLoop s c (d :: a :: bs) rest).Sublist
        (bs.reverse ++ (a :: d :: rest)) := by simpa using ih
    have h2 : (bs.reverse ++ (a :: d :: rest)).Sublist
        (bs.reverse ++ (b :: a :: d :: rest)) :=
      List.Sublist.append_left (List.sublist_cons_self _ _) _
    simpa using h1.trans h2
  | case10 b bs a rest h ih =>
    rw [pruneLoop_cons_noPrune s c b bs a rest h]
    have h1 : (pruneLoop s c (a :: b :: bs) rest).Sublist
        (bs.reverse ++ (b :: a :: rest)) := by simpa using ih
    simpa using h1

/-- Pruning never removes a fixed node: the sublist of fixed nodes is exactly
preserved (every removal in the source is guarded by `!isFixed`). -/
theorem pruneLoop_filter_isFixed (s : Settings) (c : Bool) :
    ∀ (before after : List Node),
      (pruneLoop s c before after).filter (fun n => n.isFixed)
        = (before.reverse ++ after).filter (fun n => n.isFixed) := by
  intro before after
  induction before, after using pruneLoop.induct s c with
  | case1 before =>
    rw [pruneLoop_nil]
    simp
  | case2 a rest h ih =>
    cases c with
    | false =>
      rw [pruneLoop_zero_open]
      simpa using ih
    | true => simp at h
  | case3 a rest p hp h hf ih =>
    cases c with
    | false => simp at hp
    | true =>
      simp only [reduceDIte, Option.some.injEq] at hp
      subst hp
      rw [pruneLoop_zero_closed_fixed s a rest h hf]
      simpa using ih
  | case4 a rest p hp h hf hdl =>
    cases c with
    | false => simp at hp
    | true =>
      simp only [reduceDIte, Option.some.injEq] at hp
      subst hp
      have hrest : rest = [] := by
        have hlen := congrArg List.length hdl
        simp at hlen
        exact hlen
      subst hrest
      rw [pruneLoop_zero_closed_prune_nil s a [] h (by simpa using hf) hdl]
      have ha : (lastOr a []).isFixed = false := by simpa using hf
      rw [lastOr_nil] at ha
      simp [ha]
  | case5 a rest p hp h hf b bs hdl ih =>
    cases c with
    | false => simp at hp
    | true =>
      simp only [reduceDIte, Option.some.injEq] at hp
      subst hp
      rw [pruneLoop_zero_closed_prune s a rest b bs h (by simpa using hf) hdl]
      have hdecomp : a :: rest = (b :: bs) ++ [lastOr a rest] := by
        rw [← hdl, dropLast_append_lastOr]
      have hlf : (lastOr a rest).isFixed = false := by simpa using hf
      have h1 : (pruneLoop s true [b] bs).filter (fun n => n.isFixed)
          = (b :: bs).filter (fun n => n.isFixed) := by simpa using ih
      rw [List.reverse_nil, List.nil_append, hdecomp, h1]
      simp [List.filter_append, List.filter_cons, hlf]
  | case6 a rest p hp h ih =>
    cases c with
    | false => simp at hp
    | true =>
      simp only [reduceDIte, Option.some.injEq] at hp
      subst hp
      rw [pruneLoop_zero_closed_noPrune s a rest h]
      simpa using ih
  | case7 b bs a rest h hf ih =>
    rw [pruneLoop_cons_fixed s c b bs a rest h hf]
    simp only [List.reverse_cons, List.append_assoc] at ih ⊢
    simpa using ih
  | case8 b bs a h hf =>
    rw [pruneLoop_cons_prune_nil s c b bs a h (by simpa using hf)]
    have hbf : b.isFixed = false := by simpa using hf
    simp [List.filter_append, hbf]
  | case9 b bs a h hf d rest ih =>
    rw [pruneLoop_cons_prune s c b bs a d rest h (by simpa using hf)]
    have hbf : b.isFixed = false := by simpa using hf
    simp only [List.reverse_cons, List.append_assoc] at ih ⊢
    rw [ih]
    simp [List.filter_append, hbf]
  | case10 b bs a rest h ih =>
    rw [pruneLoop_cons_noPrune s c b bs a rest h]
    simp only [List.reverse_cons, List.append_assoc] at ih ⊢
    simpa using ih

/-- From index ≥ 1 on, if no remaining consecutive pair is closer than
`MinDistance`, the pruning loop only advances. -/
theorem pruneLoop_advance_sim (s : Settings) (c : Bool) :
    ∀ (rest : List Node) (b : Node) (bs : List Node),
      (∀ pr ∈ consPairs (b :: rest), ¬ distLT pr.1.pos pr.2.pos s.MinDistance) →
      pruneLoop s c (b :: bs) rest = (b :: bs).reverse ++ rest := by
  intro rest
  induction rest with
  | nil =>
    intro b bs _
    rw [pruneLoop_nil]
    simp
  | cons a rest ih =>
    intro b bs hp
    have hpair : ¬ distLT a.pos b.pos s.MinDistance :=
      hp (a, b) (by rw [consPairs_cons_cons]; exact List.mem_cons_self _ _)
    have htail : ∀ pr ∈ consPairs (a :: rest), ¬ distLT pr.1.pos pr.2.pos s.MinDistance :=
      fun pr hpr => hp pr (by rw [consPairs_cons_cons]; exact List.mem_cons_of_mem _ hpr)
    rw [pruneLoop_cons_noPrune s c b bs a rest hpair, ih a (b :: bs) htail]
    simp

/-- If no adjacent pair of the path (wrap-around pair of a closed path
included) is closer than `MinDistance`, `pruneNodes` changes nothing. -/
theorem pruneNodes_id_of_ok (s : Settings) (c : Bool) (nodes : List Node)
    (hp : ∀ pr ∈ allPairs c nodes, ¬ distLT pr.1.pos pr.2.pos s.MinDistance) :
    pruneNodes s c nodes = nodes := by
  unfold pruneNodes
  have hcons : ∀ pr ∈ consPairs nodes, ¬ distLT pr.1.pos pr.2.pos s.MinDistance :=
    fun pr hpr => hp pr (by unfold allPairs; exact List.mem_append_left _ hpr)
  match nodes, hcons, hp with
  | [], _, _ => rw [pruneLoop_nil]; rfl
  | a :: rest, hcons, hp =>
    cases c with
    | false =>
      rw [pruneLoop_zero_open, pruneLoop_advance_sim s false rest a [] hcons]
      simp
    | true =>
      have hwrap : ¬ distLT a.pos (lastOr a rest).pos s.MinDistance := by
        have := hp (a, lastOr a rest)
          (by unfold allPairs
              apply List.mem_append_right
              simp)
        simpa using this
      rw [pruneLoop_zero_closed_noPrune s a rest hwrap,
        pruneLoop_advance_sim s true rest a [] hcons]
      simp

/-- `Path.applyBrownianMotion`: adds the two random offsets drawn from
`random(-BrownianMotionRange/2, BrownianMotionRange/2)` directly to the node's
current position (not to `nextPosition`).  The embedding takes the drawn
offsets as parameters. -/
def applyBrownianMotion (dx dy : ℚ) (nodes : List Node) (index : ℕ) : List Node :=
  match nodes[index]? with
  | none => nodes
  | some nd => nodes.set index { nd with x := nd.x + dx, y := nd.y + dy }

/-- `Path.applyAttraction`: for the next and then the previous connected
neighbor, if the node is not fixed and its distance to that neighbor strictly
exceeds the smaller of the two nodes' `minDistance`s, lerp `nextPosition`
toward the neighbor by `AttractionForce` (accumulating on `nextPosition`). -/
def applyAttraction (s : Settings) (isClosed : Bool) (nodes : List Node) (index : ℕ) :
    List Node :=
  match nodes[index]? with
  | none => nodes
  | some nd =>
    let cn := getConnected isClosed nodes index
    let nd1 :=
      match cn.2 with
      | some nextNode =>
        if nd.isFixed = false ∧
            distGT nd.pos nextNode.pos (min nd.minDistance nextNode.minDistance) then
          { nd with nextPosition := ⟨lerp nd.nextPosition.x nextNode.x s.AttractionForce,
                                     lerp nd.nextPosition.y nextNode.y s.AttractionForce⟩ }
        else nd
      | none => nd
    let nd2 :=
      match cn.1 with
      | some previousNode =>
        if nd1.isFixed = false ∧
            distGT nd1.pos previousNode.pos (min nd1.minDistance previousNode.minDistance) then
          { nd1 with nextPosition := ⟨lerp nd1.nextPosition.x previousNode.x s.AttractionForce,
                                      lerp nd1.nextPosition.y previousNode.y s.AttractionForce⟩ }
        else nd1
      | none => nd1
    nodes.set index nd2

/-- Insertion into a list sorted by distance to a center `c` (nearest first),
used to model the distance-sorted result order of the knn query. -/
def insertByDist (c p : Pt) : List Pt → List Pt
  | [] => [p]
  | q :: qs => if dist2 p c < dist2 q c then p :: q :: qs else q :: insertByDist c p qs

/-- Sort a list of points by distance to `c`, nearest first. -/
def sortByDist (c : Pt) : List Pt → List Pt
  | [] => []
  | p :: ps => insertByDist c p (sortByDist c ps)

/-- The `knn(tree, x, y, undefined, undefined, maxDistance)` query of
`Path.applyRepulsion`: all entries of the spatial index within the given
squared distance of the center, nearest first.  (The `rbush-knn` library
compares its internally squared distances directly against the `maxDistance`
argument, which is why the source passes `repulsionRadius²`; the net effect is
a query radius of `repulsionRadius`.) -/
def knnRadius (tree : List Pt) (c : Pt) (r2 : ℚ) : List Pt :=
  sortByDist c (tree.filter (fun p => dist2 p c ≤ r2))

/-- `Path.applyRepulsion`: for every spatial-index entry within
`repulsionRadius` of the node's current position, set `nextPosition` to the
interpolation from the node's *current position* (`this.nodes[index].x`, not
`nextPosition.x`) away from that neighbor by `-RepulsionForce`.  Each hit
overwrites the previous one, so after the loop `nextPosition` reflects only
the last processed (farthest) hit. -/
def applyRepulsion (s : Settings) (tree : List Pt) (nodes : List Node) (index : ℕ) :
    List Node :=
  match nodes[index]? with
  | none => nodes
  | some nd =>
    let neighbors := knnRadius tree nd.pos (nd.repulsionRadius * nd.repulsionRadius)
    let nd2 := neighbors.foldl
      (fun cur p =>
        { cur with nextPosition := ⟨lerp cur.x p.x (-s.RepulsionForce),
                                    lerp cur.y p.y (-s.RepulsionForce)⟩ }) nd
    nodes.set index nd2

/-- `Path.applyAlignment`: when both connected neighbors exist and the node is
not fixed, lerp `nextPosition` toward the midpoint of the two neighbors by
`AlignmentForce`. -/
def applyAlignment (s : Settings) (isClosed : Bool) (nodes : List Node) (index : ℕ) :
    List Node :=
  match nodes[index]? with
  | none => nodes
  | some nd =>
    let cn := getConnected isClosed nodes index
    match cn.1, cn.2 with
    | some previousNode, some nextNode =>
      if nd.isFixed = false then
        let midpoint := midpointNode s previousNode nextNode
        nodes.set index
          { nd with nextPosition := ⟨lerp nd.nextPosition.x midpoint.x s.AlignmentForce,
                                     lerp nd.nextPosition.y midpoint.y s.AlignmentForce⟩ }
      else nodes
    | _, _ => nodes

/-- `Path.applyBounds`.  Modelled from the spec: class `Bounds` (its file is
not among the sources) is an immutable polygon with a `contains` test; only
that test matters here, so a bounds object is embedded as its containment
predicate, `none` standing for a path without bounds (`this.bounds = false`).
A node whose current position is outside the bounds is marked fixed. -/
def applyBounds (bounds : Option (Pt → Bool)) (nodes : List Node) (index : ℕ) : List Node :=
  match nodes[index]?, bounds with
  | some nd, some contains =>
    if contains nd.pos = false then nodes.set index { nd with isFixed := true } else nodes
  | _, _ => nodes

/-- The commit step of `Path.iterate`: `node.iterate()` (see `nodeIterate`). -/
def commitStep (s : Settings) (nodes : List Node) (index : ℕ) : List Node :=
  match nodes[index]? with
  | none => nodes
  | some nd => nodes.set index (nodeIterate s nd)

/-- `Path.injectRandomNode`: for the randomly drawn index (the draw
`parseInt(random(1, nodes.length))` is taken as a parameter), if both
connected neighbors exist and the node is strictly farther than `MinDistance`
from its previous neighbor, splice the midpoint with the previous neighbor in
at that index. -/
def injectRandomNode (s : Settings) (isClosed : Bool) (nodes : List Node) (index : ℕ) :
    List Node :=
  match nodes[index]? with
  | none => nodes
  | some nd =>
    let cn := getConnected isClosed nodes index
    match cn.1, cn.2 with
    | some previousNode, some _ =>
      if distGT nd.pos previousNode.pos s.MinDistance then
        List.insertIdx index (midpointNode s nd previousNode) nodes
      else nodes
    | _, _ => nodes

/-- One pass of the per-node force sequence of `Path.iterate` for a single
index: optional Brownian jitter, attraction, repulsion, alignment, bounds
check, then the node's own commit step. -/
def perNodeForces (s : Settings) (isClosed : Bool) (bounds : Option (Pt → Bool))
    (tree : List Pt) (useBrownianMotion : Bool) (rand : ℕ → ℚ × ℚ)
    (nodes : List Node) (index : ℕ) : List Node :=
  let n0 := if useBrownianMotion then
      applyBrownianMotion (rand index).1 (rand index).2 nodes index
    else nodes
  let n1 := applyAttraction s isClosed n0 index
  let n2 := applyRepulsion s tree n1 index
  let n3 := applyAlignment s isClosed n2 index
  let n4 := applyBounds bounds n3 index
  commitStep s n4 index

/-- `Path.iterate`: the per-node force loop in sequence order, then
`splitEdges`, then `pruneNodes`, then — when the wall-clock injection interval
has elapsed (parameter `doInject`) — `injectNode`, which in the constructor's
`injectionMode = "RANDOM"` dispatches to `injectRandomNode` with a random
index (parameter `injectIndex`).  The random Brownian draws are the parameter
`rand`. -/
def pathIterate (s : Settings) (isClosed : Bool) (bounds : Option (Pt → Bool))
    (tree : List Pt) (useBrownianMotion : Bool) (rand : ℕ → ℚ × ℚ)
    (doInject : Bool) (injectIndex : ℕ) (nodes : List Node) : List Node :=
  let moved := (List.range nodes.length).foldl
    (perNodeForces s isClosed bounds tree useBrownianMotion rand) nodes
  let split := splitEdges s isClosed moved
  let pruned := pruneNodes s isClosed split
  if doInject then injectRandomNode s isClosed pruned injectIndex else pruned

/-- `Path.addToHistory`: if the history is exactly at `MaxHistorySize`, shift
off the oldest snapshot (index 0), then push a deep copy of the current
nodes.  The source deep-copies via `JSON.parse(JSON.stringify(...))`; the
embedding has value semantics, so the snapshot is the node list itself. -/
def addToHistory (maxHistorySize : ℕ) (nodeHistory : List (List Node))
    (snapshot : List Node) : List (List Node) :=
  (if nodeHistory.length = maxHistorySize then nodeHistory.tail else nodeHistory)
    ++ [snapshot]

/-- An HSBA color object (`{h, s, b, a}`) as used for the Path fill/stroke
colors. -/
structure Color where
  h : ℚ
  s : ℚ
  b : ℚ
  a : ℚ
deriving DecidableEq, Repr

/-- The Path state touched by the color/display operations.  In the source
`currentFillColor`/`currentStrokeColor` are always references (aliases) to one
of the four stored color objects — the constructor and `setInvertedColors`
only ever assign one of them, and `setTraceMode` mutates the alias's `a`
field in place, which mutates the stored pair currently selected.  The
embedding therefore stores the four color objects plus the `invertedColors`
selector and derives the current colors (`currentFillColor`,
`currentStrokeColor` below). -/
structure PathState where
  nodes : List Node
  isClosed : Bool
  fillColor : Color
  strokeColor : Color
  invertedFillColor : Color
  invertedStrokeColor : Color
  invertedColors : Bool
  traceMode : Bool
deriving DecidableEq, Repr

/-- The color object `this.currentFillColor` aliases: the inverted fill color
when `invertedColors` is set, the normal fill color otherwise. -/
def currentFillColor (p : PathState) : Color :=
  if p.invertedColors then p.invertedFillColor else p.fillColor

/-- The color object `this.currentStrokeColor` aliases. -/
def currentStrokeColor (p : PathState) : Color :=
  if p.invertedColors then p.invertedStrokeColor else p.strokeColor

/-- `Path.getTraceMode`. -/
def getTraceMode (p : PathState) : Bool := p.traceMode

/-- `Path.getInvertedColors`. -/
def getInvertedColors (p : PathState) : Bool := p.invertedColors

/-- `Path.setTraceMode`: store the new flag, then set the alpha of the current
fill and stroke colors.  Both branches of the source's `if (!this.traceMode)`
assign `a = 255`, so the branch on the flag is immaterial; the assignment goes
through the aliases, i.e. to the stored pair selected by `invertedColors`. -/
def setTraceMode (p : PathState) (state : Bool) : PathState :=
  let p1 := { p with traceMode := state }
  if p1.invertedColors then
    { p1 with invertedFillColor := { p1.invertedFillColor with a := 255 },
              invertedStrokeColor := { p1.invertedStrokeColor with a := 255 } }
  else
    { p1 with fillColor := { p1.fillColor with a := 255 },
              strokeColor := { p1.strokeColor with a := 255 } }

/-- `Path.setInvertedColors`: store the new flag (the source then re-aliases
`currentFillColor`/`currentStrokeColor` to the configured pair for that flag,
which is implicit in the derived `currentFillColor`), then reapply the current
trace mode "to make sure opacity is adjusted when colors are inverted". -/
def setInvertedColors (p : PathState) (state : Bool) : PathState :=
  let p1 := { p with invertedColors := state }
  setTraceMode p1 p1.traceMode

/-- `Path.toggleTraceMode`. -/
def toggleTraceMode (p : PathState) : PathState :=
  setTraceMode p (!(getTraceMode p))

/-- `Path.toggleInvertedColors`. -/
def toggleInvertedColors (p : PathState) : PathState :=
  setInvertedColors p (!(getInvertedColors p))

/-- Node of the real-coordinate model used for `Path.injectNodeByCurvature`
(the only operation whose arithmetic involves the transcendental `Math.atan`).
Only the coordinates and the fixed flag are relevant to it. -/
structure NodeR where
  x : ℝ
  y : ℝ
  isFixed : Bool

/-- Modelled from the spec: `Path.getMidpointNode` in the real-coordinate
model (new node at the average of the coordinates, not fixed). -/
noncomputable def midpointNodeR (n1 n2 : NodeR) : NodeR :=
  ⟨(n1.x + n2.x) / 2, (n1.y + n2.y) / 2, false⟩

/-- The turning-angle computation of `Path.injectNodeByCurvature`:
`Math.round(Math.abs(Math.atan(n/d)))`, with `n`/`d` the y/x differences of
the two neighbors.  `Real.arctan` is bounded by `π/2 < 2` in absolute value,
so the rounded result never exceeds 2.  (In the source, a zero `d` yields
`±Infinity` or `NaN`, on which `atan` gives `±π/2` or `NaN` and the `> 20`
guard is still false; Lean's total division `n / 0 = 0` gives angle 0 — the
same observable outcome, no insertion.) -/
theorem round_abs_arctan_le_two (z : ℝ) : round |Real.arctan z| ≤ 2 := by
  have h1 : |Real.arctan z| < 2 := by
    rw [abs_lt]
    constructor
    · have := Real.neg_pi_div_two_lt_arctan z
      have hpi : Real.pi ≤ 4 := Real.pi_le_four
      nlinarith
    · have := Real.arctan_lt_pi_div_two z
      have hpi : Real.pi ≤ 4 := Real.pi_le_four
      nlinarith
  rw [round_eq]
  have h2 : |Real.arctan z| + 1 / 2 ≤ (5 : ℝ) / 2 := by linarith
  calc ⌊|Real.arctan z| + 1 / 2⌋ ≤ ⌊(5 : ℝ) / 2⌋ := Int.floor_le_floor h2
  _ = 2 := by
      rw [Int.floor_eq_iff]
      constructor <;> norm_num

theorem not_angle_gt_twenty (z : ℝ) : ¬ ((20 : ℤ) < round |Real.arctan z|) := by
  have := round_abs_arctan_le_two z
  omega

/-- The body of `Path.injectNodeByCurvature`, embedded as a zipper loop over
the live array.  For every node with both connected neighbors, it computes the
turning angle `round |atan ((next.y - prev.y) / (next.x - prev.x))|` and, were
the angle ever above 20, would replace the current node by the two midpoints
(`splice(index, 1, prevMidpoint, nextMidpoint)`, with the index-0 variant
splicing at `length-1` and `0`).  By `round_abs_arctan_le_two` that branch is
unreachable, which is also what makes the loop terminate. -/
noncomputable def curvLoop (isClosed : Bool) : List NodeR → List NodeR → List NodeR
  | before, [] => before.reverse
  | before, a :: rest =>
    let previousNode : Option NodeR :=
      match before with
      | [] => if isClosed then some (lastOr a rest) else none
      | b :: _ => some b
    let nextNode : Option NodeR :=
      match rest with
      | r :: _ => some r
      | [] =>
        if isClosed then
          -- `this.nodes[0]` of the live array
          some (match before with
                | [] => a
                | b :: bs => lastOr b bs)
        else none
    match previousNode, nextNode with
    | some p, some nx =>
      -- `let n = next.y - prev.y; let d = next.x - prev.x;`
      -- `let angle = Math.round(Math.abs(Math.atan(n/d)))`
      match before with
      | [] =>
        if h : (20 : ℤ) < round |Real.arctan ((nx.y - p.y) / (nx.x - p.x))| then
          -- splice(length-1, 0, previousMidpoint); splice(0, 0, nextMidpoint)
          curvLoop isClosed [midpointNodeR a nx]
            (List.insertIdx ((a :: rest).length - 1) (midpointNodeR a p) (a :: rest))
        else
          curvLoop isClosed [a] rest
      | b :: bs =>
        if h : (20 : ℤ) < round |Real.arctan ((nx.y - p.y) / (nx.x - p.x))| then
          -- splice(index, 1, previousMidpoint, nextMidpoint)
          curvLoop isClosed (midpointNodeR a p :: b :: bs) (midpointNodeR a nx :: rest)
        else
          curvLoop isClosed (a :: b :: bs) rest
    | _, _ => curvLoop isClosed (a :: before) rest
termination_by _ after => after.length
decreasing_by
  all_goals simp_wf
  all_goals first
    | exact absurd h (not_angle_gt_twenty _)
    | omega

/-- `Path.injectNodeByCurvature` on the node array of a path
(real-coordinate model). -/
noncomputable def injectNodeByCurvatureR (isClosed : Bool) (nodes : List NodeR) : List NodeR :=
  curvLoop isClosed [] nodes

/-- The curvature-injection loop never modifies the array: every step
advances, because the computed angle can never exceed 20. -/
theorem curvLoop_noop (c : Bool) :
    ∀ (after before : List NodeR), curvLoop c before after = before.reverse ++ after := by
  intro after
  induction after with
  | nil =>
    intro before
    unfold curvLoop
    cases before <;> simp
  | cons a rest ih =>
    intro before
    conv_lhs => unfold curvLoop
    cases before with
    | nil =>
      cases c with
      | false =>
        simp only []
        rw [ih]
        simp
      | true =>
        cases rest with
        | nil =>
          simp only [dif_neg (not_angle_gt_twenty _)]
          rw [ih]
          simp
        | cons r rest2 =>
          simp only [dif_neg (not_angle_gt_twenty _)]
          rw [ih]
          simp
    | cons b bs =>
      cases rest with
      | nil =>
        cases c with
        | false =>
          simp only []
          rw [ih]
          simp
        | true =>
          simp only [dif_neg (not_angle_gt_twenty _)]
          rw [ih]
          simp
      | cons r rest2 =>
        simp only [dif_neg (not_angle_gt_twenty _)]
        rw [ih]
        simp

theorem set_self {α : Type} :
    ∀ (l : List α) (i : ℕ) (a : α), l[i]? = some a → l.set i a = l := by
  intro l
  induction l with
  | nil => intro i a h; simp at h
  | cons x xs ih =>
    intro i a h
    cases i with
    | zero =>
      simp at h
      simp [List.set, h]
    | succ j =>
      simp at h
      simp [List.set, ih j a h]

theorem insertByDist_perm (c p : Pt) :
    ∀ (l : List Pt), (insertByDist c p l).Perm (p :: l) := by
  intro l
  induction l with
  | nil => simp [insertByDist]
  | cons q qs ih =>
    rw [insertByDist]
    by_cases hd : dist2 p c < dist2 q c
    · rw [if_pos hd]
    · rw [if_neg hd]
      exact (List.Perm.cons q ih).trans (List.Perm.swap p q qs)

theorem sortByDist_perm (c : Pt) :
    ∀ (l : List Pt), (sortByDist c l).Perm l := by
  intro l
  induction l with
  | nil => simp [sortByDist]
  | cons p ps ih =>
    rw [sortByDist]
    exact ((insertByDist_perm c p _).trans (List.Perm.cons p ih))

/-- The knn query returns exactly the index entries within the query
radius (membership view). -/
theorem mem_knnRadius (tree : List Pt) (c : Pt) (r2 : ℚ) (p : Pt) :
    p ∈ knnRadius tree c r2 ↔ p ∈ tree ∧ dist2 p c ≤ r2 := by
  unfold knnRadius
  rw [(sortByDist_perm c _).mem_iff, List.mem_filter]
  simp

/-- The repulsion fold only ever rewrites `nextPosition` from the (constant)
current position, so the final value is the write of the last neighbor. -/
theorem repulsion_foldl (F : ℚ) :
    ∀ (qs : List Pt) (q : Pt) (cur : Node),
      List.foldl
        (fun cur p =>
          { cur with nextPosition := ⟨lerp cur.x p.x (-F), lerp cur.y p.y (-F)⟩ })
        cur (q :: qs)
      = { cur with nextPosition := ⟨lerp cur.x (lastOr q qs).x (-F),
                                    lerp cur.y (lastOr q qs).y (-F)⟩ } := by
  intro qs
  induction qs with
  | nil => intro q cur; rfl
  | cons q2 qs2 ih =>
    intro q cur
    rw [List.foldl_cons, lastOr_cons]
    exact ih q2 _

/-- Attraction skips a fixed node entirely (both neighbor branches are guarded
by `!isFixed`). -/
theorem applyAttraction_fixed (s : Settings) (c : Bool) (nodes : List Node) (index : ℕ)
    (nd : Node) (h : nodes[index]? = some nd) (hf : nd.isFixed = true) :
    applyAttraction s c nodes index = nodes := by
  unfold applyAttraction
  rw [h]
  cases hn : (getConnected c nodes index).2 <;> cases hp : (getConnected c nodes index).1 <;>
    simp [hn, hp, hf, set_self _ _ _ h]

/-- Alignment skips a fixed node entirely. -/
theorem applyAlignment_fixed (s : Settings) (c : Bool) (nodes : List Node) (index : ℕ)
    (nd : Node) (h : nodes[index]? = some nd) (hf : nd.isFixed = true) :
    applyAlignment s c nodes index = nodes := by
  unfold applyAlignment
  rw [h]
  cases hp : (getConnected c nodes index).1 <;> cases hn : (getConnected c nodes index).2 <;>
    simp [hp, hn, hf]

theorem map_isFixed_set (nodes : List Node) (index : ℕ) (nd nd' : Node)
    (h : nodes[index]? = some nd) (hf : nd'.isFixed = nd.isFixed) :
    (nodes.set index nd').map Node.isFixed = nodes.map Node.isFixed := by
  rw [List.map_set]
  apply set_self
  rw [List.getElem?_map, h]
  simp [hf]

theorem applyBrownianMotion_map_isFixed (dx dy : ℚ) (nodes : List Node) (index : ℕ) :
    (applyBrownianMotion dx dy nodes index).map Node.isFixed = nodes.map Node.isFixed := by
  unfold applyBrownianMotion
  cases h : nodes[index]? with
  | none => rfl
  | some nd => exact map_isFixed_set _ _ _ _ h rfl

theorem applyAttraction_map_isFixed (s : Settings) (c : Bool) (nodes : List Node) (index : ℕ) :
    (applyAttraction s c nodes index).map Node.isFixed = nodes.map Node.isFixed := by
  unfold applyAttraction
  cases h : nodes[index]? with
  | none => rfl
  | some nd =>
    apply map_isFixed_set _ _ _ _ h
    cases hn : (getConnected c nodes index).2 <;> cases hp : (getConnected c nodes index).1 <;>
      simp only [hn, hp] <;> split_ifs <;> rfl

theorem foldl_repulse_isFixed (F : ℚ) :
    ∀ (l : List Pt) (cur : Node),
      (List.foldl
        (fun cur p =>
          { cur with nextPosition := ⟨lerp cur.x p.x (-F), lerp cur.y p.y (-F)⟩ })
        cur l).isFixed = cur.isFixed := by
  intro l
  induction l with
  | nil => intro cur; rfl
  | cons q qs ih => intro cur; rw [List.foldl_cons, ih]

theorem applyRepulsion_map_isFixed (s : Settings) (tree : List Pt) (nodes : List Node)
    (index : ℕ) :
    (applyRepulsion s tree nodes index).map Node.isFixed = nodes.map Node.isFixed := by
  unfold applyRepulsion
  cases h : nodes[index]? with
  | none => rfl
  | some nd => exact map_isFixed_set _ _ _ _ h (foldl_repulse_isFixed _ _ _)

theorem applyAlignment_map_isFixed (s : Settings) (c : Bool) (nodes : List Node) (index : ℕ) :
    (applyAlignment s c nodes index).map Node.isFixed = nodes.map Node.isFixed := by
  unfold applyAlignment
  cases h : nodes[index]? with
  | none => rfl
  | some nd =>
    cases hp : (getConnected c nodes index).1 <;> cases hn : (getConnected c nodes index).2 <;>
      simp only [hp, hn]
    all_goals
      first
        | rfl
        | (split_ifs <;> first | exact map_isFixed_set _ _ _ _ h rfl | rfl)

theorem nodeIterate_isFixed (s : Settings) (nd : Node) :
    (nodeIterate s nd).isFixed = nd.isFixed := by
  unfold nodeIterate
  split_ifs <;> rfl

theorem commitStep_map_isFixed (s : Settings) (nodes : List Node) (index : ℕ) :
    (commitStep s nodes index).map Node.isFixed = nodes.map Node.isFixed := by
  unfold commitStep
  cases h : nodes[index]? with
  | none => rfl
  | some nd => exact map_isFixed_set _ _ _ _ h (nodeIterate_isFixed s nd)

theorem applyBounds_fixed_stays (bounds : Option (Pt → Bool)) (nodes : List Node)
    (index j : ℕ) (nd : Node) (h : nodes[j]? = some nd) (hf : nd.isFixed = true) :
    ∃ nd', (applyBounds bounds nodes index)[j]? = some nd' ∧ nd'.isFixed = true := by
  unfold applyBounds
  cases hi : nodes[index]? with
  | none =>
    cases bounds <;> exact ⟨nd, h, hf⟩
  | some ndi =>
    cases bounds with
    | none => exact ⟨nd, h, hf⟩
    | some contains =>
      dsimp only
      by_cases hc : contains ndi.pos = false
      · rw [if_pos hc]
        by_cases hij : index = j
        · subst hij
          have hlen : index < nodes.length := by
            by_contra hlen
            rw [List.getElem?_eq_none (by omega)] at hi
            cases hi
          exact ⟨{ ndi with isFixed := true }, by rw [List.getElem?_set]; simp [hlen], rfl⟩
        · exact ⟨nd, by rw [List.getElem?_set]; simp [hij, h], hf⟩
      · rw [if_neg hc]
        exact ⟨nd, h, hf⟩

/-- Edge splitting never removes a node. -/
theorem splitLoop_mem_super (s : Settings) (c : Bool) (hM : 0 < s.MaxDistance) :
    ∀ (before after : List Node) (nd : Node),
      nd ∈ before ∨ nd ∈ after → nd ∈ splitLoop s c hM before after := by
  intro before after
  induction before, after using splitLoop.induct s c hM with
  | case1 before =>
    intro nd h
    rw [splitLoop_nil]
    simp at h ⊢
    tauto
  | case2 a rest h ih =>
    cases c with
    | false =>
      intro nd hnd
      rw [splitLoop_zero_open]
      apply ih
      simp at hnd ⊢
      tauto
    | true => simp at h
  | case3 a rest p hp hd ih =>
    cases c with
    | false => simp at hp
    | true =>
      simp only [reduceDIte, Option.some.injEq] at hp
      subst hp
      intro nd hnd
      rw [splitLoop_zero_closed_split s hM a rest hd]
      apply ih
      simp at hnd ⊢
      tauto
  | case4 a rest p hp hd ih =>
    cases c with
    | false => simp at hp
    | true =>
      simp only [reduceDIte, Option.some.injEq] at hp
      subst hp
      intro nd hnd
      rw [splitLoop_zero_closed_noSplit s hM a rest hd]
      apply ih
      simp at hnd ⊢
      tauto
  | case5 a rest b bs hd ih =>
    intro nd hnd
    rw [splitLoop_cons_split s c hM a b bs rest hd]
    apply ih
    simp at hnd ⊢
    tauto
  | case6 a rest b bs hd ih =>
    intro nd hnd
    rw [splitLoop_cons_noSplit s c hM a b bs rest hd]
    apply ih
    simp at hnd ⊢
    tauto

/-- Every node of the split result is an original node or a (non-fixed)
freshly created midpoint. -/
theorem splitLoop_mem_sub (s : Settings) (c : Bool) (hM : 0 < s.MaxDistance) :
    ∀ (before after : List Node) (nd : Node),
      nd ∈ splitLoop s c hM before after →
      nd ∈ before ∨ nd ∈ after ∨ nd.isFixed = false := by
  intro before after
  induction before, after using splitLoop.induct s c hM with
  | case1 before =>
    intro nd h
    rw [splitLoop_nil] at h
    simp at h
    tauto
  | case2 a rest h ih =>
    cases c with
    | false =>
      intro nd hnd
      rw [splitLoop_zero_open] at hnd
      have := ih nd hnd
      simp at this ⊢
      tauto
    | true => simp at h
  | case3 a rest p hp hd ih =>
    cases c with
    | false => simp at hp
    | true =>
      simp only [reduceDIte, Option.some.injEq] at hp
      subst hp
      intro nd hnd
      rw [splitLoop_zero_closed_split s hM a rest hd] at hnd
      rcases ih nd hnd with h1 | h2 | h3
      · right; left
        have : nd = a := by simpa using h1
        rw [this]
        exact List.mem_cons_self _ _
      · rcases List.mem_append.mp h2 with h2a | h2b
        · right; left
          exact List.mem_cons_of_mem _ h2a
        · have hm : nd = midpointNode s a (lastOr a rest) := by simpa using h2b
          right; right
          rw [hm]
          rfl
      · right; right; exact h3
  | case4 a rest p hp hd ih =>
    cases c with
    | false => simp at hp
    | true =>
      simp only [reduceDIte, Option.some.injEq] at hp
      subst hp
      intro nd hnd
      rw [splitLoop_zero_closed_noSplit s hM a rest hd] at hnd
      rcases ih nd hnd with h1 | h2 | h3
      · right; left
        have : nd = a := by simpa using h1
        rw [this]
        exact List.mem_cons_self _ _
      · right; left
        exact List.mem_cons_of_mem _ h2
      · right; right; exact h3
  | case5 a rest b bs hd ih =>
    intro nd hnd
    rw [splitLoop_cons_split s c hM a b bs rest hd] at hnd
    rcases ih nd hnd with h1 | h2 | h3
    · rcases List.mem_cons.mp h1 with h1a | h1b
      · right; right
        rw [h1a]
        rfl
      · exact Or.inl h1b
    · exact Or.inr (Or.inl h2)
    · right; right; exact h3
  | case6 a rest b bs hd ih =>
    intro nd hnd
    rw [splitLoop_cons_noSplit s c hM a b bs rest hd] at hnd
    rcases ih nd hnd with h1 | h2 | h3
    · rcases List.mem_cons.mp h1 with h1a | h1b
      · right; left
        rw [h1a]
        exact List.mem_cons_self _ _
      · exact Or.inl h1b
    · right; left
      exact List.mem_cons_of_mem _ h2
    · right; right; exact h3

theorem splitEdges_mem_super (s : Settings) (c : Bool) (nodes : List Node) (nd : Node)
    (h : nd ∈ nodes) : nd ∈ splitEdges s c nodes := by
  unfold splitEdges
  split
  · exact splitLoop_mem_super s c _ [] nodes nd (Or.inr h)
  · exact h

theorem splitEdges_mem_sub (s : Settings) (c : Bool) (nodes : List Node) (nd : Node)
    (h : nd ∈ splitEdges s c nodes) : nd ∈ nodes ∨ nd.isFixed = false := by
  unfold splitEdges at h
  split at h
  · have := splitLoop_mem_sub s c _ [] nodes nd h
    simpa using this
  · exact Or.inl h

theorem injectRandomNode_mem_super (s : Settings) (c : Bool) (nodes : List Node)
    (index : ℕ) (nd : Node) (h : nd ∈ nodes) :
    nd ∈ injectRandomNode s c nodes index := by
  unfold injectRandomNode
  cases hi : nodes[index]? with
  | none => exact h
  | some ndi =>
    have hlen : index < nodes.length := by
      by_contra hlen
      rw [List.getElem?_eq_none (by omega)] at hi
      cases hi
    cases hp : (getConnected c nodes index).1 <;> cases hn : (getConnected c nodes index).2 <;>
      simp only [hp, hn]
    · exact h
    · exact h
    · exact h
    · split_ifs
      · rw [List.mem_insertIdx (by omega)]
        tauto
      · exact h

theorem injectRandomNode_mem_sub (s : Settings) (c : Bool) (nodes : List Node)
    (index : ℕ) (nd : Node) (h : nd ∈ injectRandomNode s c nodes index) :
    nd ∈ nodes ∨ nd.isFixed = false := by
  unfold injectRandomNode at h
  cases hi : nodes[index]? with
  | none => rw [hi] at h; exact Or.inl h
  | some ndi =>
    rw [hi] at h
    have hlen : index < nodes.length := by
      by_contra hlen
      rw [List.getElem?_eq_none (by omega)] at hi
      cases hi
    cases hp : (getConnected c nodes index).1 <;> cases hn : (getConnected c nodes index).2 <;>
      simp only [hp, hn] at h
    · exact Or.inl h
    · exact Or.inl h
    · exact Or.inl h
    · split_ifs at h
      · rw [List.mem_insertIdx (by omega)] at h
        rcases h with h | h
        · right
          rw [h]
          rfl
        · exact Or.inl h
      · exact Or.inl h

/-- With positive capacity, the history after any series of `addToHistory`
calls starting from the empty history is exactly the sliding window of the
most recent `m` snapshots: the oldest are the ones that were dropped. -/
theorem foldl_addToHistory (m : ℕ) (hm : 1 ≤ m) :
    ∀ snaps : List (List Node),
      List.foldl (addToHistory m) [] snaps = snaps.drop (snaps.length - m) := by
  intro snaps
  induction snaps using List.reverseRecOn with
  | nil => simp
  | append_singleton xs x ih =>
    rw [List.foldl_append, List.foldl_cons, List.foldl_nil, ih]
    by_cases hk : xs.length < m
    · rw [addToHistory]
      have h0 : xs.length - m = 0 := by omega
      rw [h0, List.drop_zero, if_neg (by omega : ¬ xs.length = m)]
      have h1 : (xs ++ [x]).length - m = 0 := by simp; omega
      rw [h1, List.drop_zero]
    · push_neg at hk
      rw [addToHistory]
      have hlen : (xs.drop (xs.length - m)).length = m := by simp; omega
      rw [if_pos hlen, List.tail_drop]
      have h2 : xs.length - m + 1 = xs.length + 1 - m := by omega
      have h3 : (xs ++ [x]).length - m = xs.length + 1 - m := by simp
      rw [h2, h3, List.drop_append_of_le_length (by omega)]

/-- The claim's literal reading of `applyRepulsion`: each hit interpolates the
node's `nextPosition` away from the neighbor "starting from nextPosition's
current value, as every force does" — i.e. lerping from `nextPosition`,
accumulating across hits.  (The source instead lerps from the node's current
position, overwriting.) -/
def claimApplyRepulsion (s : Settings) (tree : List Pt) (nodes : List Node) (index : ℕ) :
    List Node :=
  match nodes[index]? with
  | none => nodes
  | some nd =>
    let neighbors := knnRadius tree nd.pos (nd.repulsionRadius * nd.repulsionRadius)
    let nd2 := neighbors.foldl
      (fun cur p =>
        { cur with nextPosition := ⟨lerp cur.nextPosition.x p.x (-s.RepulsionForce),
                                    lerp cur.nextPosition.y p.y (-s.RepulsionForce)⟩ }) nd
    nodes.set index nd2

/-- A plain node at `(x, y)` with the experiment settings' thresholds, as
`new Node(p5, x, y, Settings)` creates it. -/
def mkNode (x y : ℚ) : Node :=
  { x := x, y := y, nextPosition := ⟨x, y⟩, isFixed := false,
    minDistance := 10, repulsionRadius := 30 }

/-- Two-node open path with one edge of length 50 (more than twice
`MaxDistance = 20`). -/
def exA : List Node := [mkNode 0 0, mkNode 0 50]

/-- Two-node open path with one edge of length exactly `MaxDistance = 20`. -/
def exB : List Node := [mkNode 0 0, mkNode 0 20]

/-- Four-node open path whose first pair is closer than `MinDistance = 10`
and whose second pair is too (the second pair is skipped by the live
iterator after the first removal). -/
def exC : List Node := [mkNode 0 0, mkNode 0 5, mkNode 0 10, mkNode 0 20]

/-- Two-node open path with one edge of length 30 (between `MaxDistance` and
twice `MaxDistance`). -/
def exW : List Node := [mkNode 0 0, mkNode 0 30]

/-- A node whose `nextPosition` differs from its current position (as after
an attraction step). -/
def exRnode : Node :=
  { x := 0, y := 0, nextPosition := ⟨10, 10⟩, isFixed := false,
    minDistance := 10, repulsionRadius := 30 }

/-- A one-point spatial index with an entry near the origin. -/
def exTree : List Pt := [⟨1, 0⟩]

/-- A fixed node at the origin. -/
def exFixedNode : Node :=
  { x := 0, y := 0, nextPosition := ⟨0, 0⟩, isFixed := true,
    minDistance := 10, repulsionRadius := 30 }

/-- Concrete evaluation of `splitEdges` on the length-50 edge: the live
iterator re-examines the current node after each splice, so the single
over-long edge receives two midpoints — at `(0, 25)` and then `(0, 37.5)` —
leaving the first sub-edge at length 25 unexamined. -/
theorem splitEdges_exA :
    splitEdges exSettings false exA
      = [mkNode 0 0, mkNode 0 25, mkNode 0 (75/2), mkNode 0 50] := by
  rw [splitEdges, dif_pos (by norm_num [exSettings])]
  rw [exA, splitLoop_zero_open]
  rw [splitLoop_cons_split _ _ _ _ _ _ _
    (by norm_num [distGE, dist2, exSettings, Node.pos, mkNode])]
  rw [splitLoop_cons_split _ _ _ _ _ _ _
    (by norm_num [distGE, dist2, exSettings, Node.pos, mkNode, midpointNode])]
  rw [splitLoop_cons_noSplit _ _ _ _ _ _ _
    (by norm_num [distGE, dist2, exSettings, Node.pos, mkNode, midpointNode])]
  rw [splitLoop_nil]
  norm_num [mkNode, midpointNode, exSettings]

/-- Concrete evaluation of `splitEdges` on the length-20 edge: the source's
comparison is `distance >= MaxDistance`, so the at-threshold edge is split. -/
theorem splitEdges_exB :
    splitEdges exSettings false exB = [mkNode 0 0, mkNode 0 10, mkNode 0 20] := by
  rw [splitEdges, dif_pos (by norm_num [exSettings])]
  rw [exB, splitLoop_zero_open]
  rw [splitLoop_cons_split _ _ _ _ _ _ _
    (by norm_num [distGE, dist2, exSettings, Node.pos, mkNode])]
  rw [splitLoop_cons_noSplit _ _ _ _ _ _ _
    (by norm_num [distGE, dist2, exSettings, Node.pos, mkNode, midpointNode])]
  rw [splitLoop_nil]
  norm_num [mkNode, midpointNode, exSettings]

/-- Concrete evaluation of `pruneNodes` on `exC`: node `(0,5)` is closer than
`MinDistance` to `(0,0)`, which is removed; the removal shifts the live array
so the iterator skips `(0,10)` and the too-close pair `(0,5)–(0,10)`
survives the call. -/
theorem pruneNodes_exC :
    pruneNodes exSettings false exC = [mkNode 0 5, mkNode 0 10, mkNode 0 20] := by
  rw [pruneNodes, exC, pruneLoop_zero_open]
  rw [pruneLoop_cons_prune _ _ _ _ _ _ _
    (by norm_num [distLT, dist2, exSettings, Node.pos, mkNode]) (by rfl)]
  rw [pruneLoop_cons_noPrune _ _ _ _ _ _
    (by norm_num [distLT, dist2, exSettings, Node.pos, mkNode])]
  rw [pruneLoop_nil]
  rfl

/-- C1 (amended): `applyRepulsion` queries the spatial index for exactly the
nodes within `repulsionRadius` of the node's current position (no distance
gating inside the loop) and, for each hit, sets `nextPosition` to the
interpolation away from that neighbor by `-RepulsionForce` starting from the
node's *current position* (not from `nextPosition`), so each hit overwrites
the previous one and the final `nextPosition` is determined by the last
(farthest) hit, or is unchanged when there is no hit. -/
theorem C1_theorem (s : Settings) (tree : List Pt) (nodes : List Node) (index : ℕ)
    (nd : Node) (h : nodes[index]? = some nd) :
    (∀ p : Pt, p ∈ knnRadius tree nd.pos (nd.repulsionRadius * nd.repulsionRadius) ↔
        p ∈ tree ∧ dist2 p nd.pos ≤ nd.repulsionRadius * nd.repulsionRadius) ∧
    applyRepulsion s tree nodes index =
      nodes.set index
        (match knnRadius tree nd.pos (nd.repulsionRadius * nd.repulsionRadius) with
         | [] => nd
         | q :: qs =>
            { nd with nextPosition := ⟨lerp nd.x (lastOr q qs).x (-s.RepulsionForce),
                                       lerp nd.y (lastOr q qs).y (-s.RepulsionForce)⟩ }) := by
  constructor
  · intro p
    exact mem_knnRadius tree nd.pos _ p
  · unfold applyRepulsion
    rw [h]
    dsimp only
    cases hq : knnRadius tree nd.pos (nd.repulsionRadius * nd.repulsionRadius) with
    | nil => rfl
    | cons q qs => rw [repulsion_foldl]

/-- C1 witness: the amended characterization instantiated on a concrete node
and one-entry spatial index. -/
theorem C1_witness :
    applyRepulsion exSettings exTree [exRnode] 0 =
      [exRnode].set 0
        (match knnRadius exTree exRnode.pos (exRnode.repulsionRadius * exRnode.repulsionRadius) with
         | [] => exRnode
         | q :: qs =>
            { exRnode with nextPosition :=
                ⟨lerp exRnode.x (lastOr q qs).x (-exSettings.RepulsionForce),
                 lerp exRnode.y (lastOr q qs).y (-exSettings.RepulsionForce)⟩ }) :=
  (C1_theorem exSettings exTree [exRnode] 0 exRnode rfl).2

/-- C1 counterexample: on a node whose `nextPosition` differs from its
position, the source's repulsion (lerping from the current position) differs
from the claim's reading (lerping from `nextPosition`). -/
theorem C1_counterexample :
    applyRepulsion exSettings exTree [exRnode] 0
      ≠ claimApplyRepulsion exSettings exTree [exRnode] 0 := by
  norm_num [applyRepulsion, claimApplyRepulsion, knnRadius, sortByDist, insertByDist,
    dist2, lerp, exSettings, exTree, exRnode, Node.pos, List.filter]

/-- C2 (amended): under positive `MaxDistance` and all edges (wrap-around pair
of a closed path included) shorter than `2·MaxDistance`, a call to
`splitEdges` inserts, for exactly every node whose distance to its previous
neighbor is at least (`≥`, not strictly greater than) `MaxDistance`, one new
node at the midpoint immediately before the current index (appended at the end
of the array for index 0 on closed paths), and performs no other
modification — the single spec pass `specSplitEdges`. -/
theorem C2_theorem (s : Settings) (c : Bool) (nodes : List Node)
    (hM : 0 < s.MaxDistance)
    (hp : ∀ pr ∈ allPairs c nodes, dist2 pr.1.pos pr.2.pos < 4 * s.MaxDistance ^ 2) :
    splitEdges s c nodes = specSplitEdges s c nodes :=
  splitEdges_eq_spec s c nodes hM hp

/-- C2 witness: the amended equality instantiated on a concrete 30-long edge
with `MaxDistance = 20`. -/
theorem C2_witness :
    (0 < exSettings.MaxDistance) ∧
    (∀ pr ∈ allPairs false exW, dist2 pr.1.pos pr.2.pos < 4 * exSettings.MaxDistance ^ 2) ∧
    splitEdges exSettings false exW = specSplitEdges exSettings false exW :=
  ⟨by norm_num [exSettings],
    by norm_num [allPairs, consPairs, lastOr, exW, mkNode, dist2, Node.pos, exSettings],
    C2_theorem exSettings false exW (by norm_num [exSettings])
      (by norm_num [allPairs, consPairs, lastOr, exW, mkNode, dist2, Node.pos, exSettings])⟩

/-- C2 counterexample: the claim as stated fails twice on the code — a 50-long
edge receives two midpoints (the live iterator re-examines the node after each
splice), and an exactly-20-long edge is split even though its distance does
not strictly exceed `MaxDistance = 20`. -/
theorem C2_counterexample :
    splitEdges exSettings false exA ≠ claimSplitEdges exSettings false exA ∧
    splitEdges exSettings false exB ≠ claimSplitEdges exSettings false exB := by
  constructor
  · rw [splitEdges_exA]
    norm_num [claimSplitEdges, claimSplitGo, distGT, dist2, exSettings, midpointNode,
      Node.pos, mkNode, exA]
  · rw [splitEdges_exB]
    norm_num [claimSplitEdges, claimSplitGo, distGT, dist2, exSettings, midpointNode,
      Node.pos, mkNode, exB]

/-- C3 (amended): provided `MaxDistance` is positive and every adjacent pair
of the path is initially closer than `2·MaxDistance`, after a single call to
`splitEdges` no two adjacent nodes (wrap-around pair of a closed path
included) are separated by more than `MaxDistance`. -/
theorem C3_theorem (s : Settings) (c : Bool) (nodes : List Node)
    (hM : 0 < s.MaxDistance)
    (hp : ∀ pr ∈ allPairs c nodes, dist2 pr.1.pos pr.2.pos < 4 * s.MaxDistance ^ 2) :
    ∀ pr ∈ allPairs c (splitEdges s c nodes),
      ¬ distGT pr.1.pos pr.2.pos s.MaxDistance := by
  rw [splitEdges_eq_spec s c nodes hM hp]
  intro pr hpr
  have hlt := specSplitEdges_pairs_lt s c nodes hM hp pr hpr
  unfold distGT
  push_neg
  exact ⟨hM.le, hlt.le⟩

/-- C3 witness: the amended bound instantiated on a concrete 30-long edge. -/
theorem C3_witness :
    (0 < exSettings.MaxDistance) ∧
    (∀ pr ∈ allPairs false exW, dist2 pr.1.pos pr.2.pos < 4 * exSettings.MaxDistance ^ 2) ∧
    (∀ pr ∈ allPairs false (splitEdges exSettings false exW),
        ¬ distGT pr.1.pos pr.2.pos exSettings.MaxDistance) :=
  ⟨by norm_num [exSettings],
    by norm_num [allPairs, consPairs, lastOr, exW, mkNode, dist2, Node.pos, exSettings],
    C3_theorem exSettings false exW (by norm_num [exSettings])
      (by norm_num [allPairs, consPairs, lastOr, exW, mkNode, dist2, Node.pos, exSettings])⟩

/-- C3 counterexample: after `splitEdges` on the 50-long edge, the adjacent
pair `(0,0)–(0,25)` remains at distance 25 > `MaxDistance = 20` (the sub-edge
before the first midpoint is never re-examined). -/
theorem C3_counterexample :
    splitEdges exSettings false exA
      = [mkNode 0 0, mkNode 0 25, mkNode 0 (75/2), mkNode 0 50] ∧
    (mkNode 0 25, mkNode 0 0) ∈ allPairs false (splitEdges exSettings false exA) ∧
    distGT (mkNode 0 25).pos (mkNode 0 0).pos exSettings.MaxDistance := by
  refine ⟨splitEdges_exA, ?_, by norm_num [distGT, dist2, exSettings, Node.pos, mkNode]⟩
  rw [splitEdges_exA]
  simp [allPairs, consPairs]

/-- C4 (amended): a single call to `pruneNodes` only removes nodes (the result
is a sublist of the input), never removes a fixed node (the sublist of fixed
nodes is preserved exactly), and does nothing when no adjacent pair is closer
than `MinDistance`; it does *not* guarantee that afterwards every adjacent
non-fixed pair is at least `MinDistance` apart, because a removal shifts the
live iterator and skips the following node. -/
theorem C4_theorem (s : Settings) (c : Bool) (nodes : List Node) :
    (pruneNodes s c nodes).Sublist nodes ∧
    (pruneNodes s c nodes).filter (fun n => n.isFixed)
      = nodes.filter (fun n => n.isFixed) ∧
    ((∀ pr ∈ allPairs c nodes, ¬ distLT pr.1.pos pr.2.pos s.MinDistance) →
      pruneNodes s c nodes = nodes) := by
  refine ⟨?_, ?_, pruneNodes_id_of_ok s c nodes⟩
  · have := pruneLoop_sublist s c [] nodes
    simpa [pruneNodes] using this
  · have := pruneLoop_filter_isFixed s c [] nodes
    simpa [pruneNodes] using this

/-- C4 witness: the no-op part of the amended claim instantiated on a path
with all pairs far apart. -/
theorem C4_witness : pruneNodes exSettings false exW = exW :=
  (C4_theorem exSettings false exW).2.2
    (by norm_num [allPairs, consPairs, lastOr, exW, mkNode, distLT, dist2, Node.pos,
      exSettings])

/-- C4 counterexample: pruning `exC` removes `(0,0)` (the previous neighbor
of the too-close `(0,5)`) but then skips `(0,10)`, leaving the adjacent
non-fixed pair `(0,5)–(0,10)` at distance 5 < `MinDistance = 10`. -/
theorem C4_counterexample :
    pruneNodes exSettings false exC = [mkNode 0 5, mkNode 0 10, mkNode 0 20] ∧
    (mkNode 0 10, mkNode 0 5) ∈ allPairs false (pruneNodes exSettings false exC) ∧
    distLT (mkNode 0 10).pos (mkNode 0 5).pos exSettings.MinDistance ∧
    (mkNode 0 10).isFixed = false ∧ (mkNode 0 5).isFixed = false := by
  refine ⟨pruneNodes_exC, ?_,
    by norm_num [distLT, dist2, exSettings, Node.pos, mkNode], rfl, rfl⟩
  rw [pruneNodes_exC]
  simp [allPairs, consPairs]

/-- C5: attraction and alignment leave a fixed node (indeed the whole node
array) unchanged, while repulsion (which writes `nextPosition`) and Brownian
jitter (which writes the current position directly) still act on fixed nodes,
as witnessed on a concrete fixed node. -/
theorem C5_theorem :
    (∀ (s : Settings) (c : Bool) (nodes : List Node) (index : ℕ) (nd : Node),
        nodes[index]? = some nd → nd.isFixed = true →
        applyAttraction s c nodes index = nodes ∧ applyAlignment s c nodes index = nodes) ∧
    applyRepulsion exSettings exTree [exFixedNode] 0 ≠ [exFixedNode] ∧
    applyBrownianMotion 1 1 [exFixedNode] 0 ≠ [exFixedNode] := by
  refine ⟨fun s c nodes index nd h hf =>
    ⟨applyAttraction_fixed s c nodes index nd h hf,
     applyAlignment_fixed s c nodes index nd h hf⟩, ?_, ?_⟩
  · norm_num [applyRepulsion, knnRadius, sortByDist, insertByDist, dist2, lerp,
      exSettings, exTree, exFixedNode, Node.pos, List.filter]
  · norm_num [applyBrownianMotion, exFixedNode]

/-- C5 witness: the attraction frame condition instantiated on a concrete
fixed node. -/
theorem C5_witness : applyAttraction exSettings false [exFixedNode] 0 = [exFixedNode] :=
  (C5_theorem.1 exSettings false [exFixedNode] 0 exFixedNode rfl rfl).1

/-- C6: curvature-mode injection is a no-op — the turning angle
`Math.round(Math.abs(Math.atan(n/d)))` is a radian value bounded by
`π/2 < 2`, so the rounded angle never exceeds 2 and the `angle > 20`
insertion branch is unreachable. -/
theorem C6_theorem :
    (∀ (c : Bool) (nodes : List NodeR), injectNodeByCurvatureR c nodes = nodes) ∧
    (∀ z : ℝ, round |Real.arctan z| ≤ 2) := by
  constructor
  · intro c nodes
    unfold injectNodeByCurvatureR
    rw [curvLoop_noop]
    rfl
  · exact round_abs_arctan_le_two

/-- C7: every Path operation preserves fixedness — the per-node forces leave
every node's `isFixed` unchanged, the bounds check can only set it to `true`,
topology edits never drop a fixed node and only ever create non-fixed nodes,
so once a node is fixed no operation ever unfixes it. -/
theorem C7_theorem :
    (∀ (dx dy : ℚ) (nodes : List Node) (i : ℕ),
        (applyBrownianMotion dx dy nodes i).map Node.isFixed = nodes.map Node.isFixed) ∧
    (∀ (s : Settings) (c : Bool) (nodes : List Node) (i : ℕ),
        (applyAttraction s c nodes i).map Node.isFixed = nodes.map Node.isFixed) ∧
    (∀ (s : Settings) (tree : List Pt) (nodes : List Node) (i : ℕ),
        (applyRepulsion s tree nodes i).map Node.isFixed = nodes.map Node.isFixed) ∧
    (∀ (s : Settings) (c : Bool) (nodes : List Node) (i : ℕ),
        (applyAlignment s c nodes i).map Node.isFixed = nodes.map Node.isFixed) ∧
    (∀ (bounds : Option (Pt → Bool)) (nodes : List Node) (i j : ℕ) (nd : Node),
        nodes[j]? = some nd → nd.isFixed = true →
        ∃ nd', (applyBounds bounds nodes i)[j]? = some nd' ∧ nd'.isFixed = true) ∧
    (∀ (s : Settings) (nodes : List Node) (i : ℕ),
        (commitStep s nodes i).map Node.isFixed = nodes.map Node.isFixed) ∧
    (∀ (s : Settings) (c : Bool) (nodes : List Node) (nd : Node),
        nd ∈ nodes → nd ∈ splitEdges s c nodes) ∧
    (∀ (s : Settings) (c : Bool) (nodes : List Node) (nd : Node),
        nd ∈ splitEdges s c nodes → nd ∈ nodes ∨ nd.isFixed = false) ∧
    (∀ (s : Settings) (c : Bool) (nodes : List Node),
        (pruneNodes s c nodes).filter (fun n => n.isFixed)
          = nodes.filter (fun n => n.isFixed)) ∧
    (∀ (s : Settings) (c : Bool) (nodes : List Node) (i : ℕ) (nd : Node),
        (nd ∈ nodes → nd ∈ injectRandomNode s c nodes i) ∧
        (nd ∈ injectRandomNode s c nodes i → nd ∈ nodes ∨ nd.isFixed = false)) ∧
    (∀ (c : Bool) (nodes : List NodeR) (nd : NodeR),
        nd ∈ nodes → nd ∈ injectNodeByCurvatureR c nodes) := by
  refine ⟨applyBrownianMotion_map_isFixed, applyAttraction_map_isFixed,
    applyRepulsion_map_isFixed, applyAlignment_map_isFixed,
    applyBounds_fixed_stays, commitStep_map_isFixed,
    splitEdges_mem_super, splitEdges_mem_sub,
    fun s c nodes => by
      have := pruneLoop_filter_isFixed s c [] nodes
      simpa [pruneNodes] using this,
    fun s c nodes i nd =>
      ⟨injectRandomNode_mem_super s c nodes i nd,
       injectRandomNode_mem_sub s c nodes i nd⟩,
    fun c nodes nd h => ?_⟩
  unfold injectNodeByCurvatureR
  rw [curvLoop_noop]
  simpa using h

/-- C7 witness: the bounds conjunct instantiated on a concrete fixed node with
an always-violated bounds predicate. -/
theorem C7_witness :
    ∃ nd', (applyBounds (some (fun _ => false)) [exFixedNode] 0)[0]? = some nd'
      ∧ nd'.isFixed = true :=
  C7_theorem.2.2.2.2.1 (some (fun _ => false)) [exFixedNode] 0 0 exFixedNode rfl rfl

/-- C8 (amended): with a positive `MaxHistorySize`, the history buffer built
from the empty history never exceeds the capacity and is exactly the sliding
window of the most recent snapshots (oldest evicted first); at capacity a call
drops exactly the head (the oldest snapshot) before appending.  (With
`MaxHistorySize = 0` the length check never matches a nonempty buffer and the
buffer grows without bound, see the counterexample.) -/
theorem C8_theorem (m : ℕ) (hm : 1 ≤ m) :
    (∀ snaps : List (List Node),
        (List.foldl (addToHistory m) [] snaps).length ≤ m) ∧
    (∀ snaps : List (List Node),
        List.foldl (addToHistory m) [] snaps = snaps.drop (snaps.length - m)) ∧
    (∀ (hist : List (List Node)) (snap : List Node), hist.length = m →
        addToHistory m hist snap = hist.tail ++ [snap]) := by
  refine ⟨?_, foldl_addToHistory m hm, ?_⟩
  · intro snaps
    rw [foldl_addToHistory m hm]
    simp
    omega
  · intro hist snap hlen
    rw [addToHistory, if_pos hlen]

/-- C8 witness: the sliding-window characterization instantiated at capacity 2
with three concrete snapshots. -/
theorem C8_witness :
    List.foldl (addToHistory 2) [] [[mkNode 0 0], [mkNode 1 0], [mkNode 2 0]]
      = [[mkNode 0 0], [mkNode 1 0], [mkNode 2 0]].drop
          ([[mkNode 0 0], [mkNode 1 0], [mkNode 2 0]].length - 2) :=
  (C8_theorem 2 (by norm_num)).2.1 [[mkNode 0 0], [mkNode 1 0], [mkNode 2 0]]

/-- C8 counterexample: with `MaxHistorySize = 0`, a single add from the empty
history already leaves more than `MaxHistorySize` snapshots (the `==` capacity
check shifts nothing and the push still happens). -/
theorem C8_counterexample :
    ¬ ((List.foldl (addToHistory 0) [] [([] : List Node)]).length ≤ 0) := by
  decide

/-- A three-node vertical path: the two neighbors of the middle node share the
same x-coordinate, making the curvature divisor `nextNode.x - previousNode.x`
zero. -/
noncomputable def exVert : List NodeR := [⟨0, 0, false⟩, ⟨0, 10, false⟩, ⟨0, 20, false⟩]

/-- C9: on the vertical three-node path the curvature computation divides by
zero — the neighbors of index 1 share the x-coordinate, so the divisor is
zero (in the embedding the total division returns 0; in JavaScript the
division yields `±Infinity`/`NaN`, `atan` of which still fails the `> 20`
guard) — and the operation tolerates it: no insertion occurs and the node
sequence is returned unchanged and well-formed. -/
theorem C9_theorem :
    getConnected false exVert 1 = (some ⟨0, 0, false⟩, some ⟨0, 20, false⟩) ∧
    ((⟨0, 20, false⟩ : NodeR).x - (⟨0, 0, false⟩ : NodeR).x = 0) ∧
    (((⟨0, 20, false⟩ : NodeR).y - (⟨0, 0, false⟩ : NodeR).y)
        / ((⟨0, 20, false⟩ : NodeR).x - (⟨0, 0, false⟩ : NodeR).x) = 0) ∧
    injectNodeByCurvatureR false exVert = exVert := by
  refine ⟨?_, by norm_num, ?_, ?_⟩
  · rfl
  · norm_num
  · unfold injectNodeByCurvatureR
    rw [curvLoop_noop]
    rfl

/-- C10: toggling inverted colors flips the flag (so the active
fill/stroke colors swap to the other configured pair), reapplies the
trace-mode opacity rule (alpha 255 on the now-active pair) by invoking
`setTraceMode` with the unchanged trace flag, and leaves the node geometry
untouched. -/
theorem C10_theorem (p : PathState) :
    (toggleInvertedColors p).nodes = p.nodes ∧
    (toggleInvertedColors p).isClosed = p.isClosed ∧
    (toggleInvertedColors p).invertedColors = !p.invertedColors ∧
    (toggleInvertedColors p).traceMode = p.traceMode ∧
    currentFillColor (toggleInvertedColors p)
      = { (if p.invertedColors then p.fillColor else p.invertedFillColor) with a := 255 } ∧
    currentStrokeColor (toggleInvertedColors p)
      = { (if p.invertedColors then p.strokeColor else p.invertedStrokeColor) with a := 255 } ∧
    toggleInvertedColors p
      = setTraceMode { p with invertedColors := !p.invertedColors } p.traceMode := by
  cases hpi : p.invertedColors <;>
    simp [toggleInvertedColors, setInvertedColors, setTraceMode, getInvertedColors,
      currentFillColor, currentStrokeColor, hpi]

end DiffGrowth
